import Mathlib

/-!
Verification development for a solver of the 5×5 card-dropping puzzle game
Cadillac (levels 9–10).  The definitions below are a shallow embedding of the
Rust sources (`card.rs`, `board.rs`, `yaku.rs`, `position.rs`, `solution.rs`,
`state.rs`, `endgame.rs`); theorems check the natural-language specification
against them.

Conventions of the embedding:
* machine integers (`u8`, `u16`, `usize`) become `Nat`; the quantities involved
  in the verified claims stay far below `2^16`, where the Rust debug build
  would panic on overflow anyway;
* a `Board` is the column-major 25-slot array of `Option Card` of `board.rs`,
  as a `List` whose intended length 25 appears as a hypothesis where needed;
* fallible code (`Option` returns, panics, `anyhow` errors) becomes
  `Option`/`Except`.
-/

namespace Cadillac

/-- Card suit, `CardSuit` of `card.rs` (`Spade = 1`, …, `Diamond = 4`). -/
inductive CardSuit : Type
  | spade
  | club
  | heart
  | diamond
deriving DecidableEq, Repr

/-- `CardSuit::to_inner` (discriminant values 1..=4). -/
def CardSuit.toInner : CardSuit → Nat
  | .spade => 1
  | .club => 2
  | .heart => 3
  | .diamond => 4

/-- `CardSuit::from_inner`. -/
def CardSuit.fromInner : Nat → Option CardSuit
  | 1 => some .spade
  | 2 => some .club
  | 3 => some .heart
  | 4 => some .diamond
  | _ => none

/-- Card rank, `CardRank` of `card.rs` (A = 1, …, K = 13). -/
inductive CardRank : Type
  | rA | r2 | r3 | r4 | r5 | r6 | r7 | r8 | r9 | rT | rJ | rQ | rK
deriving DecidableEq, Repr

/-- `CardRank::to_inner` (discriminant values 1..=13). -/
def CardRank.toInner : CardRank → Nat
  | .rA => 1
  | .r2 => 2
  | .r3 => 3
  | .r4 => 4
  | .r5 => 5
  | .r6 => 6
  | .r7 => 7
  | .r8 => 8
  | .r9 => 9
  | .rT => 10
  | .rJ => 11
  | .rQ => 12
  | .rK => 13

/-- `CardRank::from_inner`. -/
def CardRank.fromInner : Nat → Option CardRank
  | 1 => some .rA
  | 2 => some .r2
  | 3 => some .r3
  | 4 => some .r4
  | 5 => some .r5
  | 6 => some .r6
  | 7 => some .r7
  | 8 => some .r8
  | 9 => some .r9
  | 10 => some .rT
  | 11 => some .rJ
  | 12 => some .rQ
  | 13 => some .rK
  | _ => none

/-- `CardRank::next`: cyclic successor with wrap-around K → A. -/
def CardRank.next : CardRank → CardRank
  | .rA => .r2
  | .r2 => .r3
  | .r3 => .r4
  | .r4 => .r5
  | .r5 => .r6
  | .r6 => .r7
  | .r7 => .r8
  | .r8 => .r9
  | .r9 => .rT
  | .rT => .rJ
  | .rJ => .rQ
  | .rQ => .rK
  | .rK => .rA

/-- `CardRank::prev`: cyclic predecessor with wrap-around A → K. -/
def CardRank.prev : CardRank → CardRank
  | .rA => .rK
  | .r2 => .rA
  | .r3 => .r2
  | .r4 => .r3
  | .r5 => .r4
  | .r6 => .r5
  | .r7 => .r6
  | .r8 => .r7
  | .r9 => .r8
  | .rT => .r9
  | .rJ => .rT
  | .rQ => .rJ
  | .rK => .rQ

/-- A card: the suit/rank pair packed into a `NonZeroU8` by `card.rs`;
`Card::suit`/`Card::rank` recover exactly these two fields. -/
structure Card : Type where
  suit : CardSuit
  rank : CardRank
deriving DecidableEq, Repr

/-- `Card::to_cadillac_value`: `(suit_index << 4) | rank` with suit_index 0..=3. -/
def Card.toCadillacValue (c : Card) : Nat :=
  (c.suit.toInner - 1) * 16 + c.rank.toInner

/-- `Card::from_cadillac_value`. -/
def Card.fromCadillacValue (value : Nat) : Option Card :=
  match CardSuit.fromInner (1 + value / 16), CardRank.fromInner (value % 16) with
  | some suit, some rank => some ⟨suit, rank⟩
  | _, _ => none

/-- Placeholder card used to model a Rust `unwrap` on a cell that the
surrounding invariants guarantee to be occupied. -/
def cardDefault : Card := ⟨.spade, .rA⟩

/-! ## Board (`board.rs`)

Column-major flat array: flat index `5 * col + row`, `col`/`row` both 0-based
(row 0 is the bottom row, printed as row 1). -/

/-- The 25-slot column-major grid of `board.rs` (`[Option<Card>; 25]`). -/
abbrev Board := List (Option Card)

/-- `Board::new`: the empty board. -/
def boardNew : Board := List.replicate 25 none

/-- `Board::col`: the contiguous 5-cell slice of column `c`. -/
def colOf (b : Board) (c : Nat) : List (Option Card) :=
  (b.drop (5 * c)).take 5

/-- `Board::row`: `array::from_fn(|col| self.0[5 * col + row])`. -/
def rowOf (b : Board) (r : Nat) : List (Option Card) :=
  (List.range 5).map fun c => b.getD (5 * c + r) none

/-- `Board::card_count`: `iter().flatten().count()`. -/
def cardCount (b : Board) : Nat := (b.filterMap id).length

/-- `Iterator::position(Option::is_none)` on a column slice. -/
def firstNoneIdx : List (Option Card) → Option Nat
  | [] => none
  | none :: _ => some 0
  | some _ :: rest => (firstNoneIdx rest).map (· + 1)

/-- `Board::put`: drop `card` into column `c`; `none` when the column is full,
otherwise the updated board and the frame cost `37 + 16 * (4 - i)` where `i`
is the 0-based row the card settled in. -/
def put (b : Board) (c : Nat) (card : Card) : Option (Board × Nat) :=
  match firstNoneIdx (colOf b c) with
  | none => none
  | some i => some (b.set (5 * c + i) (some card), 37 + 16 * (4 - i))

/-- The loop body of `Board::fall`'s `fall_col`: walking the column upwards
(`j` the scanned cell, `i` the next compacted slot), collect the cards in
order and the frame cost `8 * (j - i)` for each. -/
def fallColAux : List (Option Card) → Nat → Nat → List Card × Nat
  | [], _, _ => ([], 0)
  | none :: rest, i, j => fallColAux rest i (j + 1)
  | some c :: rest, i, j =>
      let (cs, f) := fallColAux rest (i + 1) (j + 1)
      (c :: cs, 8 * (j - i) + f)

/-- `fall_col`: compact one column downwards; returns the settled column and
its frame cost. -/
def fallCol (l : List (Option Card)) : List (Option Card) × Nat :=
  let (cs, f) := fallColAux l 0 0
  (cs.map some ++ List.replicate (l.length - cs.length) none, f)

/-- `Board::fall`: settle every column; returns the settled board and the
total frame cost. -/
def fall (b : Board) : Board × Nat :=
  let results := (List.range 5).map fun c => fallCol (colOf b c)
  ((results.map Prod.fst).flatten, (results.map Prod.snd).sum)

/-- A column is gravity-settled: no occupied cell above an empty one. -/
def settledCol : List (Option Card) → Bool
  | [] => true
  | some _ :: rest => settledCol rest
  | none :: rest => rest.all Option.isNone

/-- A board is gravity-settled (the invariant assumed by `process_yaku_chain`). -/
def isSettled (b : Board) : Bool :=
  (List.range 5).all fun c => settledCol (colOf b c)

/-! ## Yaku detection (`yaku.rs`) -/

/-- `YakuMask`: the 3-bit per-cell detection result. -/
structure YakuMask : Type where
  straight : Bool
  flush : Bool
  kind : Bool
deriving DecidableEq, Repr

/-- `YakuMask::new` / the all-zero mask. -/
def maskZero : YakuMask := ⟨false, false, false⟩

instance : Inhabited YakuMask := ⟨maskZero⟩

/-- `YakuMask::is_zero`. -/
def YakuMask.isZero (m : YakuMask) : Bool := !m.straight && !m.flush && !m.kind

/-- `YakuMask::set_straight`. -/
def setStraight (m : YakuMask) : YakuMask := { m with straight := true }

/-- `YakuMask::set_flush`. -/
def setFlush (m : YakuMask) : YakuMask := { m with flush := true }

/-- `YakuMask::set_n_of_kind`. -/
def setNOfKind (m : YakuMask) : YakuMask := { m with kind := true }

/-- `YakuMask::has_straight_flush`: both the straight and flush bits. -/
def YakuMask.hasStraightFlush (m : YakuMask) : Bool := m.straight && m.flush

/-- `YakuBoard`: the 25-slot column-major grid of masks. -/
abbrev YakuBoard := List YakuMask

/-- `YakuBoard::new`. -/
def ybNew : YakuBoard := List.replicate 25 maskZero

/-- `YakuBoard::row` (`array::from_fn(|col| self.0[5 * col + row])`). -/
def ybRowOf (yb : YakuBoard) (r : Nat) : List YakuMask :=
  (List.range 5).map fun c => yb.getD (5 * c + r) maskZero

/-- `YakuBoard::col`: the contiguous 5-slot slice of column `c`. -/
def ybColOf (yb : YakuBoard) (c : Nat) : List YakuMask :=
  (yb.drop (5 * c)).take 5

/-- `YakuBoard::count_nonzero`. -/
def countNonzero (yb : YakuBoard) : Nat :=
  yb.countP fun m => !m.isZero

/-- `straight_len_ascend`: length of the ascending straight run starting at
`card` (each following cell present with rank `= previous.next`). -/
def straightLenAscend : Card → List (Option Card) → Nat
  | _, [] => 1
  | _, none :: _ => 1
  | c, some c2 :: rest =>
      if c.rank.next = c2.rank then 1 + straightLenAscend c2 rest else 1

/-- `straight_len_descend`. -/
def straightLenDescend : Card → List (Option Card) → Nat
  | _, [] => 1
  | _, none :: _ => 1
  | c, some c2 :: rest =>
      if c.rank.prev = c2.rank then 1 + straightLenDescend c2 rest else 1

/-- `straight_len`: first try ascending; if the ascending run is ≥ 2 cards it
is committed, otherwise the descending run is used.  (The source would panic
on an empty slice, which never arises; we return 0 there.) -/
def straightLen : List (Option Card) → Nat
  | [] => 0
  | none :: _ => 0
  | some first :: rest =>
      let la := straightLenAscend first rest
      if 2 ≤ la then la else straightLenDescend first rest

/-- Length of the run of cards of suit `s` at the head of the slice. -/
def suitRun (s : CardSuit) : List (Option Card) → Nat
  | [] => 0
  | none :: _ => 0
  | some c :: rest => if c.suit = s then 1 + suitRun s rest else 0

/-- `flush_len`. -/
def flushLen : List (Option Card) → Nat
  | [] => 0
  | none :: _ => 0
  | some first :: rest => 1 + suitRun first.suit rest

/-- Length of the run of cards of rank `r` at the head of the slice. -/
def rankRun (r : CardRank) : List (Option Card) → Nat
  | [] => 0
  | none :: _ => 0
  | some c :: rest => if c.rank = r then 1 + rankRun r rest else 0

/-- `n_of_kind_len`. -/
def nOfKindLen : List (Option Card) → Nat
  | [] => 0
  | none :: _ => 0
  | some first :: rest => 1 + rankRun first.rank rest

/-- The anchor scan of `detect_*_row`: try anchors 0, 1, 2 in order and
return the first `(anchor, len)` with `len ≥ 3`. -/
def lineRun (lenF : List (Option Card) → Nat) (line : List (Option Card)) :
    Option (Nat × Nat) :=
  if 3 ≤ lenF line then some (0, lenF line)
  else if 3 ≤ lenF (line.drop 1) then some (1, lenF (line.drop 1))
  else if 3 ≤ lenF (line.drop 2) then some (2, lenF (line.drop 2))
  else none

/-- The anchor scan of `detect_*_col`: same as `lineRun` but the scan stops at
the first empty cell (the board being settled makes this a pure shortcut). -/
def lineRunCol (lenF : List (Option Card) → Nat) (line : List (Option Card)) :
    Option (Nat × Nat) :=
  if (line.getD 0 none).isNone then none
  else if 3 ≤ lenF line then some (0, lenF line)
  else if (line.getD 1 none).isNone then none
  else if 3 ≤ lenF (line.drop 1) then some (1, lenF (line.drop 1))
  else if (line.getD 2 none).isNone then none
  else if 3 ≤ lenF (line.drop 2) then some (2, lenF (line.drop 2))
  else none

/-- Set (`upd`) the mask at each listed flat index. -/
def markIdxs (upd : YakuMask → YakuMask) (idxs : List Nat) (yb : YakuBoard) :
    YakuBoard :=
  idxs.foldl (fun acc i => acc.set i (upd (acc.getD i maskZero))) yb

/-- Flat indices of the cells of the run at anchor `a`, length `len`, in row `r`. -/
def rowRunIdxs (r a len : Nat) : List Nat :=
  (List.range len).map fun m => 5 * (a + m) + r

/-- Flat indices of the cells of the run at anchor `a`, length `len`, in column `c`. -/
def colRunIdxs (c a len : Nat) : List Nat :=
  (List.range len).map fun m => 5 * c + (a + m)

/-- `detect_*_row`, generic in the run-length function and the bit setter. -/
def detectPhaseRow (lenF : List (Option Card) → Nat) (upd : YakuMask → YakuMask)
    (b : Board) (yb : YakuBoard) (r : Nat) : YakuBoard :=
  match lineRun lenF (rowOf b r) with
  | none => yb
  | some (a, len) => markIdxs upd (rowRunIdxs r a len) yb

/-- `detect_*_col`, generic in the run-length function and the bit setter. -/
def detectPhaseCol (lenF : List (Option Card) → Nat) (upd : YakuMask → YakuMask)
    (b : Board) (yb : YakuBoard) (c : Nat) : YakuBoard :=
  match lineRunCol lenF (colOf b c) with
  | none => yb
  | some (a, len) => markIdxs upd (colRunIdxs c a len) yb

/-- One detection category (`detect_straight` / `detect_flush` /
`detect_n_of_kind`): scan every row, then every column. -/
def detectPhase (lenF : List (Option Card) → Nat) (upd : YakuMask → YakuMask)
    (b : Board) (yb : YakuBoard) : YakuBoard :=
  let yb1 := (List.range 5).foldl (fun acc r => detectPhaseRow lenF upd b acc r) yb
  (List.range 5).foldl (fun acc c => detectPhaseCol lenF upd b acc c) yb1

/-- `detect_straight`. -/
def detectStraight (b : Board) (yb : YakuBoard) : YakuBoard :=
  detectPhase straightLen setStraight b yb

/-- `detect_flush`. -/
def detectFlush (b : Board) (yb : YakuBoard) : YakuBoard :=
  detectPhase flushLen setFlush b yb

/-- `detect_n_of_kind`. -/
def detectNOfKind (b : Board) (yb : YakuBoard) : YakuBoard :=
  detectPhase nOfKindLen setNOfKind b yb

/-- `detect_yaku`: straight, then flush, then n-of-a-kind, on a fresh board. -/
def detectYaku (b : Board) : YakuBoard :=
  detectNOfKind b (detectFlush b (detectStraight b ybNew))

/-! ## Prize calculation (`yaku.rs`) -/

/-- `prize_straight_flush` (the `unreachable!` arm is modelled as 0). -/
def prizeStraightFlush : Nat → Nat
  | 3 => 39
  | 4 => 40
  | 5 => 120
  | _ => 0

/-- `prize_straight`. -/
def prizeStraight : Nat → Nat
  | 3 => 10
  | 4 => 20
  | 5 => 50
  | _ => 0

/-- `prize_flush`. -/
def prizeFlush : Nat → Nat
  | 3 => 1
  | 4 => 10
  | 5 => 30
  | _ => 0

/-- `prize_n_of_kind` (4 and 5 both pay the four-of-a-kind prize). -/
def prizeNOfKind : Nat → Nat
  | 3 => 30
  | 4 => 100
  | 5 => 100
  | _ => 0

/-- `yaku_len`: length of the run of masks satisfying `cond` at the head. -/
def yakuLen (cond : YakuMask → Bool) : List YakuMask → Nat
  | [] => 0
  | m :: rest => if cond m then 1 + yakuLen cond rest else 0

/-- The anchor scan of the per-line prize functions: first anchor 0, 1, 2 with
a mask run of length ≥ 3, paid with `prizeF`. -/
def calcLinePrize (cond : YakuMask → Bool) (prizeF : Nat → Nat)
    (masks : List YakuMask) : Nat :=
  if 3 ≤ yakuLen cond masks then prizeF (yakuLen cond masks)
  else if 3 ≤ yakuLen cond (masks.drop 1) then prizeF (yakuLen cond (masks.drop 1))
  else if 3 ≤ yakuLen cond (masks.drop 2) then prizeF (yakuLen cond (masks.drop 2))
  else 0

/-- `calc_prize_straight` / `calc_prize_flush` / `calc_prize_n_of_kind`:
sum of the per-line prize over the 5 rows and the 5 columns. -/
def calcCategory (cond : YakuMask → Bool) (prizeF : Nat → Nat) (yb : YakuBoard) :
    Nat :=
  ((List.range 5).map fun r => calcLinePrize cond prizeF (ybRowOf yb r)).sum +
  ((List.range 5).map fun c => calcLinePrize cond prizeF (ybColOf yb c)).sum

/-- Ranks of a fully-occupied board row (`board.row(row).map(|c| c.unwrap().rank())`;
the `unwrap` is modelled by a default that the occupancy invariant keeps dead). -/
def rowRanksOf (b : Board) (r : Nat) : List CardRank :=
  (rowOf b r).map fun oc => (oc.getD cardDefault).rank

/-- `ranks_is_royal`: the five ranks read `T J Q K A` or `A K Q J T`. -/
def ranksIsRoyal (ranks : List CardRank) : Bool :=
  decide (ranks = [.rT, .rJ, .rQ, .rK, .rA] ∨ ranks = [.rA, .rK, .rQ, .rJ, .rT])

/-- `calc_prize_straight_flush_row`: the per-row straight-flush prize, plus the
royal-flush bonus 200 when the run has length 5 and the row ranks are royal. -/
def calcPrizeStraightFlushRow (b : Board) (yb : YakuBoard) (r : Nat) : Nat :=
  let masks := ybRowOf yb r
  let pay := fun (len : Nat) =>
    prizeStraightFlush len +
      (if len = 5 then (if ranksIsRoyal (rowRanksOf b r) then 200 else 0) else 0)
  if 3 ≤ yakuLen YakuMask.hasStraightFlush masks then
    pay (yakuLen YakuMask.hasStraightFlush masks)
  else if 3 ≤ yakuLen YakuMask.hasStraightFlush (masks.drop 1) then
    pay (yakuLen YakuMask.hasStraightFlush (masks.drop 1))
  else if 3 ≤ yakuLen YakuMask.hasStraightFlush (masks.drop 2) then
    pay (yakuLen YakuMask.hasStraightFlush (masks.drop 2))
  else 0

/-- `calc_prize_straight_flush_col`: no royal-flush bonus on columns. -/
def calcPrizeStraightFlushCol (yb : YakuBoard) (c : Nat) : Nat :=
  calcLinePrize YakuMask.hasStraightFlush prizeStraightFlush (ybColOf yb c)

/-- `calc_prize_straight_flush`. -/
def calcPrizeStraightFlush (b : Board) (yb : YakuBoard) : Nat :=
  ((List.range 5).map fun r => calcPrizeStraightFlushRow b yb r).sum +
  ((List.range 5).map fun c => calcPrizeStraightFlushCol yb c).sum

/-- The combo multiplier from the count of non-zero mask cells. -/
def comboMultiplier (n : Nat) : Nat :=
  if n ≤ 5 then 1
  else if n = 6 then 2
  else if n = 7 then 3
  else if n = 8 then 5
  else if n = 9 then 6
  else if n = 10 then 7
  else if n = 11 then 8
  else 10

/-- `calc_prize`: the four category sums; 0 stays 0, otherwise the combo
multiplier is applied. -/
def calcPrize (b : Board) (yb : YakuBoard) : Nat :=
  let base :=
    calcPrizeStraightFlush b yb +
    calcCategory YakuMask.straight prizeStraight yb +
    calcCategory YakuMask.flush prizeFlush yb +
    calcCategory YakuMask.kind prizeNOfKind yb
  if base = 0 then 0 else base * comboMultiplier (countNonzero yb)

/-! ## Yaku step and chain (`yaku.rs`) -/

/-- `process_yaku_step`: detect, price, clear the marked cells
(72 frames plus 8 per cleared cell), then settle.  Returns
`(board after, (frame cost, prize))`. -/
def yakuStep (b : Board) : Board × Nat × Nat :=
  let yb := detectYaku b
  let prize := calcPrize b yb
  let cleared := (List.range 25).filter fun i => !(yb.getD i maskZero).isZero
  let b1 := cleared.foldl (fun acc i => acc.set i none) b
  ((fall b1).1, (72 + 8 * cleared.length + (fall b1).2, prize))

/-- The loop of `process_yaku_chain`, with explicit fuel.  A step with prize 0
stops the loop, its frame cost not added; otherwise frame and prize
accumulate.  (`processYakuChainFuelFree` below shows the fuel is irrelevant
from 10 up on real boards, which is the termination claim.) -/
def chainGo : Nat → Board → Board × Nat × Nat
  | 0, b => (b, (0, 0))
  | fuel + 1, b =>
      let (b1, f, p) := yakuStep b
      if p = 0 then (b1, (0, 0))
      else
        let (b2, fr, pr) := chainGo fuel b1
        (b2, (f + fr, p + pr))

/-- `process_yaku_chain` (fuel 26 is far beyond the 10 steps a 25-card board
can need). -/
def processYakuChain (b : Board) : Board × Nat × Nat := chainGo 26 b

/-- The detection results (`detect_yaku`) of every step the chain performs,
its final prize-0 step included. -/
def chainTraceGo : Nat → Board → List YakuBoard
  | 0, _ => []
  | fuel + 1, b =>
      let (b1, _, p) := yakuStep b
      if p = 0 then [detectYaku b]
      else detectYaku b :: chainTraceGo fuel b1

/-- The detections of the steps performed by `processYakuChain`. -/
def chainTrace (b : Board) : List YakuBoard := chainTraceGo 26 b

/-! ## Solution encoding (`solution.rs`)

The Rust `Solution` is a 135-bit array read in 3-bit groups; we model the 45
groups directly (`slots.getD ply 0` is the ply's 3-bit value).  Column moves
are the `Col` inner values 1..=5; group value 0 (and the unreachable 6, 7)
decodes to "no move". -/

/-- The 45 3-bit groups of a `Solution`. -/
abbrev Solution := List Nat

/-- `Solution::new`. -/
def solutionNew : Solution := List.replicate 45 0

/-- `Col::from_inner` on a 3-bit group value. -/
def colFromInner (n : Nat) : Option Nat :=
  if 1 ≤ n ∧ n ≤ 5 then some n else none

/-- `Solution::get_move`. -/
def getMove (s : Solution) (ply : Nat) : Option Nat :=
  colFromInner (s.getD ply 0)

/-- `Solution::add_move`. -/
def addMove (s : Solution) (ply mv : Nat) : Solution := s.set ply mv

/-- `Solution::iter`: the moves of plies 0..45, skipping empty groups. -/
def solutionMoves (s : Solution) : List Nat :=
  (List.range 45).filterMap fun ply => getMove s ply

/-- The display character of a column (1..=5 ↦ A..E). -/
def colChar : Nat → Char
  | 1 => 'A'
  | 2 => 'B'
  | 3 => 'C'
  | 4 => 'D'
  | 5 => 'E'
  | _ => '?'

/-- `Display for Solution`: `[A, B, …]`. -/
def formatSolution (s : Solution) : List Char :=
  '[' :: (List.intercalate [',', ' '] ((solutionMoves s).map fun mv => [colChar mv])
    ++ [']'])

/-- `str::split(',')` on a character list (an empty input yields one empty
token, as in Rust). -/
def splitComma : List Char → List (List Char)
  | [] => [[]]
  | c :: rest =>
      if c = ',' then [] :: splitComma rest
      else
        match splitComma rest with
        | [] => [[c]]
        | t :: ts => (c :: t) :: ts

/-- `str::trim` (whitespace from both ends). -/
def trimChars (l : List Char) : List Char :=
  ((l.dropWhile Char.isWhitespace).reverse.dropWhile Char.isWhitespace).reverse

/-- The per-token match of `Solution::from_str` (`"A"..="E"`, else an error). -/
def parseMoveToken : List Char → Option Nat
  | ['A'] => some 1
  | ['B'] => some 2
  | ['C'] => some 3
  | ['D'] => some 4
  | ['E'] => some 5
  | _ => none

/-- The token loop of `Solution::from_str`. -/
def parseSolutionGo : Nat → Solution → List (List Char) → Option Solution
  | _, sol, [] => some sol
  | ply, sol, tok :: rest =>
      match parseMoveToken (trimChars tok) with
      | none => none
      | some mv => parseSolutionGo (ply + 1) (addMove sol ply mv) rest

/-- `Solution::from_str`: strip the surrounding brackets, split on commas,
parse each trimmed token. -/
def parseSolution (input : List Char) : Option Solution :=
  match input with
  | '[' :: rest =>
      if rest.getLast? = some ']' then
        parseSolutionGo 0 solutionNew (splitComma rest.dropLast)
      else none
  | _ => none

/-- The solution whose moves are `ms` played at plies `0..ms.length`. -/
def ofMoves (ms : List Nat) : Solution :=
  ms.take 45 ++ List.replicate (45 - ms.length) 0

/-! ## Deck and level initialisation (`position.rs`)

A `CardPile` is listed in draw order: index 0 is the next card drawn
(`CardPile`'s `Index` impl; the in-game memory array is the reverse of the
internal vector, so draw order equals memory-dump order). -/

/-- The deck, in draw order. -/
abbrev CardPile := List Card

/-- `is_connected` of `Position::with_level_8_to_10`: same suit, or ranks at
cyclic distance ≤ 1. -/
def isConnected (c1 c2 : Card) : Bool :=
  c1.suit = c2.suit ||
    (c1.rank.prev = c2.rank || c1.rank = c2.rank || c1.rank.next = c2.rank)

/-- The `k` scan of `disconnect`: the first index `≥ k` whose card is not
connected to `c` (`none` models the out-of-bounds panic when every remaining
card is connected). -/
def findSwapIdx (c : Card) (d : CardPile) : Nat → Nat → Option Nat
  | _, 0 => none
  | k, fuel + 1 =>
      match d[k]? with
      | none => none
      | some x => if isConnected c x then findSwapIdx c d (k + 1) fuel else some k

/-- `CardPile::swap`. -/
def swapIdx (d : CardPile) (j k : Nat) : CardPile :=
  (d.set j (d.getD k cardDefault)).set k (d.getD j cardDefault)

/-- `disconnect`: if `d[i]` and `d[j]` are connected, swap `d[j]` with `d[k]`
for the first `k ≥ 10` not connected to `d[i]`. -/
def disconnect (i j : Nat) (d : CardPile) : Option CardPile :=
  let c1 := d.getD i cardDefault
  if isConnected c1 (d.getD j cardDefault) then
    match findSwapIdx c1 d 10 d.length with
    | none => none
    | some k => some (swapIdx d j k)
  else some d

/-- The disconnect pass of `Position::with_level_8_to_10` at level 9 or 10:
pairs (0,1) … (4,5), then (1,5), then (3,6). -/
def disconnectPass9 (d : CardPile) : Option CardPile :=
  (((((((disconnect 0 1 d).bind
    (disconnect 1 2)).bind
    (disconnect 2 3)).bind
    (disconnect 3 4)).bind
    (disconnect 4 5)).bind
    (disconnect 1 5)).bind
    (disconnect 3 6))

/-- `CardPile::new_initial`: `none` models the `assert_eq!` panic when the 52
cards are not pairwise distinct. -/
def newInitial (d : List Card) : Option CardPile :=
  if d.dedup.length = 52 then some d else none

/-- A hexadecimal digit (`u8::from_str_radix(_, 16)` accepts both cases). -/
def hexDigit (c : Char) : Option Nat :=
  if '0' ≤ c ∧ c ≤ '9' then some (c.toNat - '0'.toNat)
  else if 'a' ≤ c ∧ c ≤ 'f' then some (c.toNat - 'a'.toNat + 10)
  else if 'A' ≤ c ∧ c ≤ 'F' then some (c.toNat - 'A'.toNat + 10)
  else none

/-- The byte loop of `_parse_memory_helper`: two hex digits per card, each a
valid cadillac value. -/
def parseMemoryCards : List Char → Option (List Card)
  | [] => some []
  | [_] => none
  | c1 :: c2 :: rest =>
      match hexDigit c1, hexDigit c2 with
      | some h1, some h2 =>
          match Card.fromCadillacValue (16 * h1 + h2) with
          | some card => (parseMemoryCards rest).map fun cards => card :: cards
          | none => none
      | _, _ => none

/-- `CardPile::parse_memory_initial`: drop ASCII whitespace, require exactly
`2 * 52` characters, parse the 52 bytes.  No duplicate check is performed. -/
def parseMemoryInitial (s : List Char) : Option CardPile :=
  let stripped := s.filter fun c => !c.isWhitespace
  if stripped.length = 2 * 52 then parseMemoryCards stripped else none

/-! ## Search state and endgame DFS (`state.rs`, `endgame.rs`) -/

/-- `State`: frame, money, board, accumulated solution. -/
structure GameState : Type where
  frame : Nat
  money : Nat
  board : Board
  solution : Solution
deriving DecidableEq, Repr

/-- `State::neighbors`: for each column in order A..E, try the placement and
resolve the yaku chain. -/
def neighbors (s : GameState) (ply : Nat) (card : Card) : List GameState :=
  (List.range 5).filterMap fun c =>
    match put s.board c card with
    | none => none
    | some (b1, fput) =>
        let (b2, fy, pz) := processYakuChain b1
        some ⟨s.frame + fput + fy, s.money + pz, b2, addMove s.solution ply (c + 1)⟩

/-- `state_is_ok`: board cleared and the level's money threshold met
(level 9 → 200, level 10 → 250; other levels are unreachable). -/
def stateIsOk (level : Nat) (s : GameState) : Bool :=
  let moneyMin := match level with
    | 9 => 200
    | 10 => 250
    | _ => 0
  moneyMin ≤ s.money && cardCount s.board = 0

mutual

/-- `endgame.rs`'s `dfs`, with the emitted solutions accumulated in order:
prune when `frame_best ≤ frame`; at an empty deck emit the state if
`state_is_ok`, updating `frame_best` to its frame; otherwise draw the next
card and recurse over the neighbors.  Returns the final `frame_best` and the
emission list. -/
def dfs (level : Nat) (pile : List Card) (s : GameState) (fb : Nat)
    (acc : List GameState) : Nat × List GameState :=
  if fb ≤ s.frame then (fb, acc)
  else
    match pile with
    | [] => if stateIsOk level s then (s.frame, acc ++ [s]) else (fb, acc)
    | card :: rest => dfsRun level rest (neighbors s (45 - 1 - rest.length) card) fb acc
termination_by (pile.length, 0)

/-- The `for neighbor in state.neighbors(..)` loop of `dfs`. -/
def dfsRun (level : Nat) (pile : List Card) (ss : List GameState) (fb : Nat)
    (acc : List GameState) : Nat × List GameState :=
  match ss with
  | [] => (fb, acc)
  | s :: ss2 =>
      let (fb1, acc1) := dfs level pile s fb acc
      dfsRun level pile ss2 fb1 acc1
termination_by (pile.length, ss.length + 1)

end

/-! ## Concrete instances used by witnesses and counterexamples -/

/-- Build a board from its five columns, each listed bottom-to-top. -/
def boardOfCols (cols : List (List (Option Card))) : Board := cols.flatten

/-- A board whose bottom row reads ranks `2 3 4 3 2` (the spec's pinned
straight-detection example). -/
def boardLine23432 : Board := boardOfCols [
  [some ⟨.spade, .r2⟩, none, none, none, none],
  [some ⟨.club, .r3⟩, none, none, none, none],
  [some ⟨.heart, .r4⟩, none, none, none, none],
  [some ⟨.diamond, .r3⟩, none, none, none, none],
  [some ⟨.club, .r2⟩, none, none, none, none]]

/-- A settled board whose bottom row holds three aces (columns A–C). -/
def boardThreeAces : Board := boardOfCols [
  [some ⟨.spade, .rA⟩, none, none, none, none],
  [some ⟨.club, .rA⟩, none, none, none, none],
  [some ⟨.heart, .rA⟩, none, none, none, none],
  [none, none, none, none, none],
  [none, none, none, none, none]]

/-- A board whose bottom row is the ascending spade royal `T J Q K A`. -/
def boardRoyalRow : Board := boardOfCols [
  [some ⟨.spade, .rT⟩, none, none, none, none],
  [some ⟨.spade, .rJ⟩, none, none, none, none],
  [some ⟨.spade, .rQ⟩, none, none, none, none],
  [some ⟨.spade, .rK⟩, none, none, none, none],
  [some ⟨.spade, .rA⟩, none, none, none, none]]

/-- A yaku board whose bottom row (flat indices 0, 5, 10, 15, 20) carries
straight+flush marks. -/
def masksRoyalRow : YakuBoard :=
  markIdxs (fun m => setFlush (setStraight m)) [0, 5, 10, 15, 20] ybNew

/-- All 52 distinct cards. -/
def fullDeck : List Card :=
  ([CardSuit.spade, .club, .heart, .diamond].flatMap fun s =>
    [CardRank.rA, .r2, .r3, .r4, .r5, .r6, .r7, .r8, .r9, .rT, .rJ, .rQ, .rK].map
      fun r => ⟨s, r⟩)

/-- The first 11 draws of the deck refuting claim C6: the pairs (0,1) … (4,5)
are already disconnected, deck 1 (`H7`) and deck 5 (`HT`) share a suit, and
the first replacement candidate, deck 10 (`C5`), is connected to deck 4
(`C6`): the (1,5) fix re-connects the pair (4,5). -/
def counterHead : List Card :=
  [⟨.spade, .r2⟩, ⟨.heart, .r7⟩, ⟨.spade, .r4⟩, ⟨.diamond, .r9⟩, ⟨.club, .r6⟩,
   ⟨.heart, .rT⟩, ⟨.spade, .rJ⟩, ⟨.diamond, .r2⟩, ⟨.diamond, .r4⟩,
   ⟨.diamond, .r6⟩, ⟨.club, .r5⟩]

/-- The 52-card deck refuting claim C6, `counterHead` completed with the
remaining cards in a fixed order. -/
def counterDeck : List Card :=
  counterHead ++ fullDeck.filter fun c => c ∉ counterHead

/-- A 52-card deck whose first two cards coincide. -/
def dupDeck52 : List Card := ⟨.spade, .rA⟩ :: ⟨.spade, .rA⟩ :: fullDeck.drop 2

/-- The memory dump of the fixed-deal cheat deck (the test deck of
`position.rs`).  The in-game deck it denotes contains duplicates (`23` and
`22` both occur twice). -/
def cheatDumpChars : List Char :=
  String.toList ("1A 2B 3B 2A 0A 19 2C 3C 29 09 17 16 0D 1D 2D 3D 11 01 21 31 " ++
    "28 08 18 15 04 3A 1C 0C 14 05 37 1B 0B 32 33 35 36 23 06 13 03 22 07 12 " ++
    "02 34 27 26 25 24 23 22")

/-! ## Generic list helpers -/

theorem getD_set_ne {α : Type} (l : List α) {i j : Nat} (x d : α) (h : i ≠ j) :
    (l.set i x).getD j d = l.getD j d := by
  simp [List.getD, List.getElem?_set_ne h]

theorem getD_set_self {α : Type} (l : List α) {i : Nat} (x d : α)
    (h : i < l.length) : (l.set i x).getD i d = x := by
  simp [List.getD, List.getElem?_set_self, h]

theorem getD_drop {α : Type} (l : List α) (n m : Nat) (d : α) :
    (l.drop n).getD m d = l.getD (n + m) d := by
  simp [List.getD, List.getElem?_drop]

theorem getD_take {α : Type} (l : List α) {n m : Nat} (d : α) (h : m < n) :
    (l.take n).getD m d = l.getD m d := by
  simp [List.getD, List.getElem?_take, h]

theorem getD_map_range {α : Type} {n k : Nat} (f : Nat → α) (d : α) (h : k < n) :
    ((List.range n).map f).getD k d = f k := by
  simp [List.getD, List.getElem?_map, List.getElem?_range h]

theorem foldl_fix {α β : Type} {g : β → α → β} {l : List α} {acc : β}
    (h : ∀ acc2 x, x ∈ l → g acc2 x = acc2) : l.foldl g acc = acc := by
  induction l generalizing acc with
  | nil => rfl
  | cons hd tl ih =>
      rw [List.foldl_cons, h acc hd (List.mem_cons_self hd tl)]
      exact ih fun acc2 x hx => h acc2 x (List.mem_cons_of_mem hd hx)

theorem foldl_inv {α β : Type} (I : β → Prop) (g : β → α → β) (l : List α)
    (h : ∀ acc x, x ∈ l → I acc → I (g acc x)) :
    ∀ acc, I acc → I (l.foldl g acc) := by
  induction l with
  | nil => exact fun acc hacc => hacc
  | cons hd tl ih =>
      intro acc hacc
      exact ih (fun acc2 x hx => h acc2 x (List.mem_cons_of_mem hd hx)) _
        (h acc hd (List.mem_cons_self hd tl) hacc)

theorem foldl_establish {α β : Type} (P I : β → Prop) (g : β → α → β)
    (l : List α) (x : α) (hmem : x ∈ l)
    (hI : ∀ acc y, I acc → I (g acc y))
    (hest : ∀ acc, I acc → P (g acc x))
    (hpres : ∀ acc y, P acc → I acc → P (g acc y)) :
    ∀ acc, I acc → P (l.foldl g acc) := by
  induction l with
  | nil => cases hmem
  | cons hd tl ih =>
      intro acc hacc
      rcases List.mem_cons.mp hmem with rfl | hx
      · rw [List.foldl_cons]
        have h2 : ∀ acc2, (P acc2 ∧ I acc2) → P (tl.foldl g acc2) ∧ I (tl.foldl g acc2) :=
          fun acc2 hP => foldl_inv (fun b => P b ∧ I b) g tl
            (fun acc3 y _ hPI => ⟨hpres acc3 y hPI.1 hPI.2, hI acc3 y hPI.2⟩) acc2 hP
        exact (h2 _ ⟨hest acc hacc, hI acc x hacc⟩).1
      · exact ih hx _ (hI acc hd hacc)

/-! ## `firstNoneIdx` characterisation (for `Board::put`) -/

theorem firstNoneIdx_eq_none_iff (l : List (Option Card)) :
    firstNoneIdx l = none ↔ ∀ oc ∈ l, oc.isSome := by
  induction l with
  | nil => simp [firstNoneIdx]
  | cons hd tl ih =>
      cases hd with
      | none => simp [firstNoneIdx]
      | some c =>
          simp only [firstNoneIdx, Option.map_eq_none', ih, List.mem_cons]
          constructor
          · rintro h oc (rfl | hm)
            · rfl
            · exact h oc hm
          · intro h oc hm
            exact h oc (Or.inr hm)

theorem firstNoneIdx_eq_some (l : List (Option Card)) (i : Nat)
    (h : firstNoneIdx l = some i) :
    i < l.length ∧ l.getD i none = none ∧ ∀ m, m < i → ((l.getD m none).isSome) := by
  induction l generalizing i with
  | nil => simp [firstNoneIdx] at h
  | cons hd tl ih =>
      cases hd with
      | none =>
          simp only [firstNoneIdx, Option.some.injEq] at h
          subst h
          exact ⟨by simp, rfl, fun m hm => absurd hm (Nat.not_lt_zero m)⟩
      | some c =>
          simp only [firstNoneIdx, Option.map_eq_some'] at h
          obtain ⟨i0, hi0, rfl⟩ := h
          obtain ⟨h1, h2, h3⟩ := ih i0 hi0
          refine ⟨by simpa using h1, h2, ?_⟩
          intro m hm
          cases m with
          | zero => rfl
          | succ m0 => exact h3 m0 (Nat.lt_of_succ_lt_succ hm)

/-! ## Claim C1: straight detection -/

/-- C1: for a 5-cell line and an anchor holding a card, straight detection
first extends the ascending run; if that run has at least 2 cards it is
committed, otherwise the descending run is used; on the line of ranks
`2 3 4 3 2` only the ascending `2 3 4` (flat cells 0, 5, 10 of the bottom
row) is marked as a straight. -/
theorem straight_detection_ascending_first :
    (∀ (first : Card) (rest : List (Option Card)),
        2 ≤ straightLenAscend first rest →
        straightLen (some first :: rest) = straightLenAscend first rest) ∧
    (∀ (first : Card) (rest : List (Option Card)),
        straightLenAscend first rest < 2 →
        straightLen (some first :: rest) = straightLenDescend first rest) ∧
    (List.range 25).filter
        (fun i => ((detectYaku boardLine23432).getD i maskZero).straight) = [0, 5, 10] :=
  ⟨fun first rest h => by simp [straightLen, h],
   fun first rest h => by
     simp only [straightLen]
     rw [if_neg (by omega)],
   by decide⟩

/-- Witness for C1 at concrete inputs: the ascending run `2 3 4` of length 3
is committed, and on the descending-only line `3 2 A` the descending length 3
is returned. -/
theorem straight_detection_ascending_first_witness :
    straightLen [some ⟨.spade, .r2⟩, some ⟨.club, .r3⟩, some ⟨.heart, .r4⟩] = 3 ∧
    straightLen [some ⟨.spade, .r3⟩, some ⟨.club, .r2⟩, some ⟨.heart, .rA⟩] = 3 := by
  constructor
  · rw [straight_detection_ascending_first.1 _ _ (by decide)]
    decide
  · rw [straight_detection_ascending_first.2.1 _ _ (by decide)]
    decide

/-! ## Claim C2: `Board::put` -/

/-- C2: `put(col, card)` fails exactly when the five cells of the column are
all occupied; otherwise it fills the lowest empty cell `i` of the column
(every cell below `i` occupied), leaves all other cells unchanged, and costs
`37 + 16 * (4 - i)` frames. -/
theorem put_spec :
    ∀ (b : Board) (c : Nat) (card : Card), b.length = 25 → c < 5 →
      (put b c card = none ↔ ∀ oc ∈ colOf b c, oc.isSome) ∧
      (∀ b2 f, put b c card = some (b2, f) →
        ∃ i, i < 5 ∧ (colOf b c).getD i none = none ∧
          (∀ m, m < i → ((colOf b c).getD m none).isSome) ∧
          b2 = b.set (5 * c + i) (some card) ∧
          f = 37 + 16 * (4 - i) ∧
          ∀ idx, idx < 25 → idx ≠ 5 * c + i → b2.getD idx none = b.getD idx none) := by
  intro b c card hlen hc
  have hcol : (colOf b c).length = 5 := by
    simp only [colOf, List.length_take, List.length_drop, hlen]
    omega
  cases h : firstNoneIdx (colOf b c) with
  | none =>
      refine ⟨?_, ?_⟩
      · constructor
        · intro _
          exact (firstNoneIdx_eq_none_iff _).mp h
        · intro _
          simp [put, h]
      · intro b2 f hput
        simp [put, h] at hput
  | some i =>
      obtain ⟨h1, h2, h3⟩ := firstNoneIdx_eq_some _ _ h
      refine ⟨?_, ?_⟩
      · constructor
        · intro hput
          simp [put, h] at hput
        · intro hall
          rw [(firstNoneIdx_eq_none_iff _).mpr hall] at h
          cases h
      · intro b2 f hput
        simp only [put, h, Option.some.injEq, Prod.mk.injEq] at hput
        refine ⟨i, by omega, h2, h3, hput.1.symm, hput.2.symm, ?_⟩
        intro idx _ hne
        rw [← hput.1]
        exact getD_set_ne b (some card) none (fun hEq => hne hEq.symm)

/-- Witness for C2: dropping a card into column 0 of the empty board settles
at the bottom cell. -/
theorem put_spec_witness :
    (put boardNew 0 cardDefault = none ↔ ∀ oc ∈ colOf boardNew 0, oc.isSome) ∧
    (∀ b2 f, put boardNew 0 cardDefault = some (b2, f) →
      ∃ i, i < 5 ∧ (colOf boardNew 0).getD i none = none ∧
        (∀ m, m < i → ((colOf boardNew 0).getD m none).isSome) ∧
        b2 = boardNew.set (5 * 0 + i) (some cardDefault) ∧
        f = 37 + 16 * (4 - i) ∧
        ∀ idx, idx < 25 → idx ≠ 5 * 0 + i →
          b2.getD idx none = boardNew.getD idx none) :=
  put_spec boardNew 0 cardDefault (by decide) (by decide)

/-! ## Claim C10: duplicate cards in the initial deck -/

/-- Counterexample to C10: the memory-dump parsing entry point
(`CardPile::parse_memory_initial`) accepts the cheat deck, a 52-card dump
containing duplicate cards, instead of halting. -/
theorem parse_memory_initial_accepts_duplicates :
    (parseMemoryInitial cheatDumpChars).isSome = true ∧
    ((parseMemoryInitial cheatDumpChars).getD []).Nodup = false := by
  constructor
  · rfl
  · decide

/-- C10 amended: `CardPile::new_initial` panics exactly on 52-card arrays with
a duplicate; `parse_memory_initial` performs no such check. -/
theorem new_initial_duplicate_check :
    ∀ d : List Card, d.length = 52 →
      (¬ d.Nodup → newInitial d = none) ∧ (d.Nodup → newInitial d = some d) := by
  intro d hlen
  constructor
  · intro hnd
    have hne : ¬ d.dedup.length = 52 := by
      intro hdl
      apply hnd
      have hsub : List.Sublist d.dedup d := List.dedup_sublist d
      have hEq : d.dedup = d := hsub.eq_of_length (by rw [hdl, hlen])
      rw [← hEq]
      exact d.nodup_dedup
    rw [newInitial, if_neg hne]
  · intro hnd
    have hEq : d.dedup.length = 52 := by rw [hnd.dedup, hlen]
    rw [newInitial, if_pos hEq]

/-- Witness for C10: the distinct 52-card deck is accepted, the duplicated
one rejected. -/
theorem new_initial_duplicate_check_witness :
    newInitial fullDeck = some fullDeck ∧ newInitial dupDeck52 = none :=
  ⟨(new_initial_duplicate_check fullDeck (by decide)).2 (by decide),
   (new_initial_duplicate_check dupDeck52 (by decide)).1 (by decide)⟩

/-! ## Claim C6: the disconnect pass -/

/-- The `k` scan of `disconnect`: a successful scan starting at `k` yields an
index `≥ k`, in range, whose card is not connected to `c`. -/
theorem findSwapIdx_spec :
    ∀ (fuel k k2 : Nat) (c : Card) (d : CardPile),
      findSwapIdx c d k fuel = some k2 →
      k ≤ k2 ∧ k2 < d.length ∧ isConnected c (d.getD k2 cardDefault) = false := by
  intro fuel
  induction fuel with
  | zero => intro k k2 c d h; cases h
  | succ n ih =>
      intro k k2 c d h
      rw [findSwapIdx] at h
      cases hk : d[k]? with
      | none => simp only [hk] at h; cases h
      | some x =>
          simp only [hk] at h
          by_cases hconn : isConnected c x = true
          · rw [if_pos hconn] at h
            obtain ⟨h1, h2, h3⟩ := ih (k + 1) k2 c d h
            exact ⟨by omega, h2, h3⟩
          · rw [if_neg hconn] at h
            cases h
            have hlt : k < d.length := by
              by_contra hge
              rw [List.getElem?_eq_none (by omega)] at hk
              cases hk
            refine ⟨Nat.le_refl k, hlt, ?_⟩
            have hgd : d.getD k cardDefault = x := by
              simp [List.getD, hk]
            rw [hgd]
            exact Bool.eq_false_iff.mpr hconn

/-- `disconnect` makes the treated pair unconnected (for pair indices below
the swap range starting at 10). -/
theorem disconnect_establishes {i j : Nat} {d d2 : CardPile}
    (hi : i < 10) (hj : j < 10) (hij : i ≠ j)
    (h : disconnect i j d = some d2) :
    isConnected (d2.getD i cardDefault) (d2.getD j cardDefault) = false := by
  rw [disconnect] at h
  by_cases hconn : isConnected (d.getD i cardDefault) (d.getD j cardDefault) = true
  · rw [if_pos hconn] at h
    cases hf : findSwapIdx (d.getD i cardDefault) d 10 d.length with
    | none => rw [hf] at h; cases h
    | some k =>
        rw [hf] at h
        cases h
        obtain ⟨hk10, hklen, hkconn⟩ := findSwapIdx_spec _ _ _ _ _ hf
        have hgi : (swapIdx d j k).getD i cardDefault = d.getD i cardDefault := by
          rw [swapIdx, getD_set_ne _ _ _ (by omega), getD_set_ne _ _ _ hij.symm]
        have hgj : (swapIdx d j k).getD j cardDefault = d.getD k cardDefault := by
          rw [swapIdx, getD_set_ne _ _ _ (by omega),
            getD_set_self _ _ _ (by omega)]
        rw [hgi, hgj]
        exact hkconn
  · rw [if_neg hconn] at h
    cases h
    exact Bool.eq_false_iff.mpr hconn

/-- `disconnect i j` leaves every deck position other than `j` and the swap
target (which is ≥ 10) unchanged. -/
theorem disconnect_preserves {i j p : Nat} {d d2 : CardPile}
    (hp : p < 10) (hpj : p ≠ j)
    (h : disconnect i j d = some d2) :
    d2.getD p cardDefault = d.getD p cardDefault := by
  rw [disconnect] at h
  by_cases hconn : isConnected (d.getD i cardDefault) (d.getD j cardDefault) = true
  · rw [if_pos hconn] at h
    cases hf : findSwapIdx (d.getD i cardDefault) d 10 d.length with
    | none => rw [hf] at h; cases h
    | some k =>
        rw [hf] at h
        cases h
        obtain ⟨hk10, _, _⟩ := findSwapIdx_spec _ _ _ _ _ hf
        rw [swapIdx, getD_set_ne _ _ _ (by omega), getD_set_ne _ _ _ (Ne.symm hpj)]
  · rw [if_neg hconn] at h
    cases h
    rfl

/-- Counterexample to C6: on the distinct 52-card deck `counterDeck` the
disconnect pass completes, yet afterwards deck 4 and deck 5 are connected —
the (1, 5) fix swapped a card connected to deck 4 into slot 5. -/
theorem disconnect_pass_counterexample :
    counterDeck.length = 52 ∧ counterDeck.Nodup ∧
    (disconnectPass9 counterDeck).map
      (fun d => isConnected (d.getD 4 cardDefault) (d.getD 5 cardDefault)) =
      some true := by
  refine ⟨by decide, by decide, by decide⟩

/-- C6 amended: after a completed disconnect pass, the pairs (0,1), (1,2),
(2,3), (3,4), (1,5) and (3,6) are unconnected; the pair (4,5) may have been
re-connected by the later (1,5) fix and is not guaranteed. -/
theorem disconnect_pass_pairs :
    ∀ d d2 : CardPile, disconnectPass9 d = some d2 →
      isConnected (d2.getD 0 cardDefault) (d2.getD 1 cardDefault) = false ∧
      isConnected (d2.getD 1 cardDefault) (d2.getD 2 cardDefault) = false ∧
      isConnected (d2.getD 2 cardDefault) (d2.getD 3 cardDefault) = false ∧
      isConnected (d2.getD 3 cardDefault) (d2.getD 4 cardDefault) = false ∧
      isConnected (d2.getD 1 cardDefault) (d2.getD 5 cardDefault) = false ∧
      isConnected (d2.getD 3 cardDefault) (d2.getD 6 cardDefault) = false := by
  intro d d2 h
  rw [disconnectPass9] at h
  obtain ⟨g6, h6, h36⟩ := Option.bind_eq_some.mp h
  obtain ⟨g5, h5, h15⟩ := Option.bind_eq_some.mp h6
  obtain ⟨f4, h4, h45⟩ := Option.bind_eq_some.mp h5
  obtain ⟨e3, h3, h34⟩ := Option.bind_eq_some.mp h4
  obtain ⟨b2, hb2, h23⟩ := Option.bind_eq_some.mp h3
  obtain ⟨a1, ha1, h12⟩ := Option.bind_eq_some.mp hb2
  -- position values carried down to d2
  have s0a : d2.getD 0 cardDefault = a1.getD 0 cardDefault := by
    rw [@disconnect_preserves 3 6 0 g6 d2 (by omega) (by omega) h36,
      @disconnect_preserves 1 5 0 g5 g6 (by omega) (by omega) h15,
      @disconnect_preserves 4 5 0 f4 g5 (by omega) (by omega) h45,
      @disconnect_preserves 3 4 0 e3 f4 (by omega) (by omega) h34,
      @disconnect_preserves 2 3 0 b2 e3 (by omega) (by omega) h23,
      @disconnect_preserves 1 2 0 a1 b2 (by omega) (by omega) h12]
  have s1b : d2.getD 1 cardDefault = b2.getD 1 cardDefault := by
    rw [@disconnect_preserves 3 6 1 g6 d2 (by omega) (by omega) h36,
      @disconnect_preserves 1 5 1 g5 g6 (by omega) (by omega) h15,
      @disconnect_preserves 4 5 1 f4 g5 (by omega) (by omega) h45,
      @disconnect_preserves 3 4 1 e3 f4 (by omega) (by omega) h34,
      @disconnect_preserves 2 3 1 b2 e3 (by omega) (by omega) h23]
  have s1a : d2.getD 1 cardDefault = a1.getD 1 cardDefault := by
    rw [s1b, @disconnect_preserves 1 2 1 a1 b2 (by omega) (by omega) h12]
  have s1g : d2.getD 1 cardDefault = g6.getD 1 cardDefault := by
    rw [@disconnect_preserves 3 6 1 g6 d2 (by omega) (by omega) h36]
  have s2b : d2.getD 2 cardDefault = b2.getD 2 cardDefault := by
    rw [@disconnect_preserves 3 6 2 g6 d2 (by omega) (by omega) h36,
      @disconnect_preserves 1 5 2 g5 g6 (by omega) (by omega) h15,
      @disconnect_preserves 4 5 2 f4 g5 (by omega) (by omega) h45,
      @disconnect_preserves 3 4 2 e3 f4 (by omega) (by omega) h34,
      @disconnect_preserves 2 3 2 b2 e3 (by omega) (by omega) h23]
  have s2e : d2.getD 2 cardDefault = e3.getD 2 cardDefault := by
    rw [@disconnect_preserves 3 6 2 g6 d2 (by omega) (by omega) h36,
      @disconnect_preserves 1 5 2 g5 g6 (by omega) (by omega) h15,
      @disconnect_preserves 4 5 2 f4 g5 (by omega) (by omega) h45,
      @disconnect_preserves 3 4 2 e3 f4 (by omega) (by omega) h34]
  have s3e : d2.getD 3 cardDefault = e3.getD 3 cardDefault := by
    rw [@disconnect_preserves 3 6 3 g6 d2 (by omega) (by omega) h36,
      @disconnect_preserves 1 5 3 g5 g6 (by omega) (by omega) h15,
      @disconnect_preserves 4 5 3 f4 g5 (by omega) (by omega) h45,
      @disconnect_preserves 3 4 3 e3 f4 (by omega) (by omega) h34]
  have s3f : d2.getD 3 cardDefault = f4.getD 3 cardDefault := by
    rw [@disconnect_preserves 3 6 3 g6 d2 (by omega) (by omega) h36,
      @disconnect_preserves 1 5 3 g5 g6 (by omega) (by omega) h15,
      @disconnect_preserves 4 5 3 f4 g5 (by omega) (by omega) h45]
  have s4f : d2.getD 4 cardDefault = f4.getD 4 cardDefault := by
    rw [@disconnect_preserves 3 6 4 g6 d2 (by omega) (by omega) h36,
      @disconnect_preserves 1 5 4 g5 g6 (by omega) (by omega) h15,
      @disconnect_preserves 4 5 4 f4 g5 (by omega) (by omega) h45]
  have s5g : d2.getD 5 cardDefault = g6.getD 5 cardDefault := by
    rw [@disconnect_preserves 3 6 5 g6 d2 (by omega) (by omega) h36]
  refine ⟨?_, ?_, ?_, ?_, ?_, ?_⟩
  · rw [s0a, s1a]
    exact disconnect_establishes (by omega) (by omega) (by omega) ha1
  · rw [s1b, s2b]
    exact disconnect_establishes (by omega) (by omega) (by omega) h12
  · rw [s2e, s3e]
    exact disconnect_establishes (by omega) (by omega) (by omega) h23
  · rw [s3f, s4f]
    exact disconnect_establishes (by omega) (by omega) (by omega) h34
  · rw [s1g, s5g]
    exact disconnect_establishes (by omega) (by omega) (by omega) h15
  · exact disconnect_establishes (by omega) (by omega) (by omega) h36

/-- Witness for the amended C6 on the concrete deck `counterDeck`. -/
theorem disconnect_pass_pairs_witness :
    (disconnectPass9 counterDeck).map
      (fun d => isConnected (d.getD 0 cardDefault) (d.getD 1 cardDefault)) =
      some false := by
  cases hp : disconnectPass9 counterDeck with
  | none => exact absurd hp (by decide)
  | some d2 =>
      have h := (disconnect_pass_pairs counterDeck d2 hp).1
      simp only [Option.map_some', Option.some.injEq]
      exact h

/-! ## Claim C7: emitted endgame solutions are strictly decreasing in frame -/

/-- Invariant of the endgame DFS: if the accumulated emission list is strictly
decreasing in frame and `frame_best` is below every accumulated frame, the
same holds of the result. -/
theorem dfs_emits_invariant :
    ∀ (n level : Nat) (pile : List Card) (s : GameState) (fb : Nat)
      (acc : List GameState),
      pile.length < n →
      List.Chain' (fun x y => y.frame < x.frame) acc →
      (∀ x ∈ acc, fb ≤ x.frame) →
      List.Chain' (fun x y => y.frame < x.frame) (dfs level pile s fb acc).2 ∧
        ∀ x ∈ (dfs level pile s fb acc).2, (dfs level pile s fb acc).1 ≤ x.frame := by
  intro n
  induction n with
  | zero => intro level pile s fb acc h; omega
  | succ n ih =>
      intro level pile s fb acc hlen hchain hle
      by_cases hprune : fb ≤ s.frame
      · have hd : dfs level pile s fb acc = (fb, acc) := by
          rw [dfs.eq_def, if_pos hprune]
        rw [hd]
        exact ⟨hchain, hle⟩
      · cases pile with
        | nil =>
            have hd : dfs level [] s fb acc =
                if stateIsOk level s then (s.frame, acc ++ [s]) else (fb, acc) := by
              rw [dfs.eq_def, if_neg hprune]
            rw [hd]
            by_cases hok : stateIsOk level s = true
            · rw [if_pos hok]
              constructor
              · rw [List.chain'_append]
                refine ⟨hchain, List.chain'_singleton s, ?_⟩
                intro x hx y hy
                simp only [List.head?_cons, Option.mem_def, Option.some.injEq] at hy
                subst hy
                have hmem : x ∈ acc := List.mem_of_mem_getLast? hx
                have := hle x hmem
                omega
              · intro x hx
                rcases List.mem_append.mp hx with hx2 | hx2
                · have := hle x hx2
                  omega
                · rcases List.mem_singleton.mp hx2 with rfl
                  exact Nat.le_refl _
            · rw [if_neg hok]
              exact ⟨hchain, hle⟩
        | cons card rest =>
            have hd : dfs level (card :: rest) s fb acc =
                dfsRun level rest (neighbors s (45 - 1 - rest.length) card) fb acc := by
              rw [dfs.eq_def, if_neg hprune]
            rw [hd]
            have hrun : ∀ (ss : List GameState) (fb2 : Nat) (acc2 : List GameState),
                List.Chain' (fun x y => y.frame < x.frame) acc2 →
                (∀ x ∈ acc2, fb2 ≤ x.frame) →
                List.Chain' (fun x y => y.frame < x.frame)
                    (dfsRun level rest ss fb2 acc2).2 ∧
                  ∀ x ∈ (dfsRun level rest ss fb2 acc2).2,
                    (dfsRun level rest ss fb2 acc2).1 ≤ x.frame := by
              intro ss
              induction ss with
              | nil =>
                  intro fb2 acc2 hch hle2
                  rw [dfsRun]
                  exact ⟨hch, hle2⟩
              | cons s2 ss2 ihs =>
                  intro fb2 acc2 hch hle2
                  rw [dfsRun]
                  rcases hdfs : dfs level rest s2 fb2 acc2 with ⟨fb1, acc1⟩
                  have hstep := ih level rest s2 fb2 acc2 (by simpa using hlen) hch hle2
                  rw [hdfs] at hstep
                  exact ihs fb1 acc1 hstep.1 hstep.2
            exact hrun _ fb acc hchain hle

/-- C7: within a single endgame search call, the sequence of emitted
solutions is strictly decreasing in frame count. -/
theorem endgame_emitted_frames_decreasing :
    ∀ (level : Nat) (pile : List Card) (s : GameState) (fb : Nat),
      List.Chain' (fun x y => y.frame < x.frame) (dfs level pile s fb []).2 :=
  fun level pile s fb =>
    (dfs_emits_invariant (pile.length + 1) level pile s fb []
      (Nat.lt_succ_self _) List.chain'_nil (by simp)).1

/-! ## Claim C9: solution text round-trip -/

/-- Counterexample to C9: formatting the empty solution gives `[]`, whose
parse fails (the comma split of the empty move list yields one empty token,
which is not a valid column letter). -/
theorem solution_roundtrip_counterexample :
    parseSolution (formatSolution solutionNew) = none ∧
    parseSolution (formatSolution solutionNew) ≠ some solutionNew := by
  constructor
  · decide
  · decide

theorem filterMap_range_getD {β : Type} (l : List Nat) (f : Nat → Option β) :
    (List.range l.length).filterMap (fun p => f (l.getD p 0)) = l.filterMap f := by
  induction l with
  | nil => rfl
  | cons hd tl ih =>
      rw [List.length_cons, List.range_succ_eq_map]
      cases hf : f hd with
      | none =>
          simp only [List.filterMap_cons, List.getD_cons_zero, hf, List.filterMap_map]
          exact ih
      | some b =>
          simp only [List.filterMap_cons, List.getD_cons_zero, hf, List.filterMap_map]
          rw [← ih]
          rfl

theorem splitComma_ne_nil (l : List Char) : splitComma l ≠ [] := by
  cases l with
  | nil => simp [splitComma]
  | cons c rest =>
      by_cases h : c = ','
      · simp [splitComma, h]
      · simp only [splitComma, if_neg h]
        cases hs : splitComma rest with
        | nil => simp
        | cons t ts => simp

theorem splitComma_cons_ne (c : Char) (l : List Char) (h : c ≠ ',') :
    splitComma (c :: l) = (c :: (splitComma l).headD []) :: (splitComma l).tail := by
  rw [splitComma, if_neg h]
  cases hs : splitComma l with
  | nil => exact absurd hs (splitComma_ne_nil l)
  | cons t ts => rfl

theorem splitComma_append_noComma (t l : List Char) (h : ∀ c ∈ t, c ≠ ',') :
    splitComma (t ++ l) = (t ++ (splitComma l).headD []) :: (splitComma l).tail := by
  induction t with
  | nil =>
      simp only [List.nil_append]
      cases hs : splitComma l with
      | nil => exact absurd hs (splitComma_ne_nil l)
      | cons a as => rfl
  | cons c t2 ih =>
      have hc : c ≠ ',' := h c (List.mem_cons_self c t2)
      rw [List.cons_append, splitComma_cons_ne c (t2 ++ l) hc,
        ih fun x hx => h x (List.mem_cons_of_mem c hx)]
      rfl

theorem splitComma_comma_cons (l : List Char) :
    splitComma (',' :: l) = [] :: splitComma l := by
  simp [splitComma]

theorem intercalate_cons_cons {α : Type} (sep a b : List α) (l : List (List α)) :
    List.intercalate sep (a :: b :: l) = a ++ sep ++ List.intercalate sep (b :: l) := by
  simp [List.intercalate, List.intersperse]

theorem splitComma_tokens (t : List Char) (ts : List (List Char))
    (ht : ∀ c ∈ t, c ≠ ',') (hts : ∀ u ∈ ts, ∀ c ∈ u, c ≠ ',') :
    splitComma (List.intercalate [',', ' '] (t :: ts)) =
      t :: ts.map (fun u => ' ' :: u) := by
  induction ts generalizing t with
  | nil =>
      have h0 := splitComma_append_noComma t [] ht
      simp only [List.append_nil] at h0
      have h1 : List.intercalate [',', ' '] [t] = t := by simp [List.intercalate]
      rw [h1, h0]
      simp [splitComma]
  | cons u us ih =>
      rw [intercalate_cons_cons]
      have step1 : t ++ [',', ' '] ++ List.intercalate [',', ' '] (u :: us) =
          t ++ (',' :: (' ' :: List.intercalate [',', ' '] (u :: us))) := by
        simp
      rw [step1, splitComma_append_noComma t _ ht, splitComma_comma_cons,
        splitComma_cons_ne ' ' _ (by decide),
        ih u (hts u (List.mem_cons_self u us))
          (fun v hv => hts v (List.mem_cons_of_mem u hv))]
      simp

theorem set_append_len {α : Type} (pre l : List α) (x : α) :
    (pre ++ l).set pre.length x = pre ++ l.set 0 x := by
  induction pre with
  | nil => rfl
  | cons a t ih => simp [List.set, ih]

theorem take_all_of_le' {α : Type} (l : List α) (n : Nat) (h : l.length ≤ n) :
    l.take n = l := List.take_of_length_le h

theorem filterMap_colFromInner_self (ms : List Nat)
    (hb : ∀ mv ∈ ms, 1 ≤ mv ∧ mv ≤ 5) : ms.filterMap colFromInner = ms := by
  induction ms with
  | nil => rfl
  | cons m t ih =>
      have hm := hb m (List.mem_cons_self m t)
      rw [List.filterMap_cons]
      rw [show colFromInner m = some m from by rw [colFromInner, if_pos hm]]
      rw [ih fun x hx => hb x (List.mem_cons_of_mem m hx)]

theorem filterMap_colFromInner_zeros (k : Nat) :
    (List.replicate k 0).filterMap colFromInner = [] := by
  induction k with
  | zero => rfl
  | succ n ih => simp [List.replicate, List.filterMap_cons, colFromInner, ih]

theorem solutionMoves_ofMoves (ms : List Nat)
    (hb : ∀ mv ∈ ms, 1 ≤ mv ∧ mv ≤ 5) (hlen : ms.length ≤ 45) :
    solutionMoves (ofMoves ms) = ms := by
  have h45 : (ofMoves ms).length = 45 := by
    simp [ofMoves, List.length_take]
    omega
  have h1 : solutionMoves (ofMoves ms) =
      (List.range (ofMoves ms).length).filterMap
        (fun p => colFromInner ((ofMoves ms).getD p 0)) := by
    rw [h45]; rfl
  rw [h1, filterMap_range_getD, ofMoves, take_all_of_le' ms 45 hlen,
    List.filterMap_append, filterMap_colFromInner_self ms hb,
    filterMap_colFromInner_zeros, List.append_nil]

theorem colChar_not_special (mv : Nat) :
    (colChar mv).isWhitespace = false ∧ colChar mv ≠ ',' := by
  unfold colChar
  split <;> exact ⟨by decide, by decide⟩

theorem trim_space_cons (u : List Char) : trimChars (' ' :: u) = trimChars u := by
  rw [trimChars, trimChars, List.dropWhile_cons_of_pos (by decide)]

theorem trim_nonWs_single (c : Char) (h : c.isWhitespace = false) :
    trimChars [c] = [c] := by
  simp [trimChars, List.dropWhile_cons, h]

theorem parseMoveToken_colChar (mv : Nat) (h1 : 1 ≤ mv) (h5 : mv ≤ 5) :
    parseMoveToken [colChar mv] = some mv := by
  interval_cases mv <;> rfl

theorem parseSolutionGo_spec :
    ∀ (toks : List (List Char)) (ms : List Nat) (pre : List Nat),
      toks.length = ms.length →
      (∀ p, p < toks.length →
        parseMoveToken (trimChars (toks.getD p [])) = some (ms.getD p 0)) →
      pre.length + ms.length ≤ 45 →
      parseSolutionGo pre.length (pre ++ List.replicate (45 - pre.length) 0) toks =
        some (pre ++ ms ++ List.replicate (45 - (pre.length + ms.length)) 0) := by
  intro toks
  induction toks with
  | nil =>
      intro ms pre hlen _ _
      have hms : ms = [] := List.length_eq_zero.mp hlen.symm
      subst hms
      simp [parseSolutionGo]
  | cons tok toks2 ih =>
      intro ms pre hlen hp hle
      cases ms with
      | nil => cases hlen
      | cons m ms2 =>
          have h0 := hp 0 (by simp)
          simp only [List.getD_cons_zero] at h0
          simp only [parseSolutionGo, h0, addMove]
          have hk : (45 - pre.length) = (45 - pre.length - 1) + 1 := by
            simp only [List.length_cons] at hlen hle ⊢
            omega
          rw [set_append_len, hk, List.replicate_succ, List.set_cons_zero]
          have hpre2 : (pre ++ [m]).length = pre.length + 1 := by simp
          have hrepl : 45 - pre.length - 1 = 45 - (pre ++ [m]).length := by
            rw [hpre2]; omega
          have hassoc : pre ++ m :: List.replicate (45 - pre.length - 1) 0 =
              (pre ++ [m]) ++ List.replicate (45 - (pre ++ [m]).length) 0 := by
            rw [← hrepl]; simp
          rw [hassoc]
          have := ih ms2 (pre ++ [m])
            (by simpa using Nat.succ_injective (by simpa using hlen))
            (fun p hp2 => by
              have := hp (p + 1) (by simpa using Nat.succ_lt_succ hp2)
              simpa using this)
            (by simp only [List.length_cons] at hle; simp [hpre2]; omega)
          have h3 : pre.length + 1 + ms2.length = pre.length + (m :: ms2).length := by
            simp only [List.length_cons]
            omega
          rw [hpre2] at this
          rw [h3] at this
          rw [hpre2, this]
          simp

theorem getD_map_lt {α β : Type} (l : List α) (g : α → β) (p : Nat) (d0 : α)
    (d : β) (h : p < l.length) : (l.map g).getD p d = g (l.getD p d0) := by
  simp [List.getD, List.getElem?_map, List.getElem?_eq_getElem h]

theorem parseSolution_cons (rest : List Char) :
    parseSolution ('[' :: rest) =
      if rest.getLast? = some ']' then
        parseSolutionGo 0 solutionNew (splitComma rest.dropLast)
      else none := rfl

/-- C9 amended: for a solution whose moves occupy a contiguous non-empty
prefix of the 45 plies (which is every solution the search builds),
`parse(format(s)) = s`.  The raw bit-array type also admits the empty
solution and gapped ones, on which the round-trip fails. -/
theorem solution_roundtrip_amended :
    ∀ ms : List Nat, (∀ mv ∈ ms, 1 ≤ mv ∧ mv ≤ 5) → 1 ≤ ms.length →
      ms.length ≤ 45 →
      parseSolution (formatSolution (ofMoves ms)) = some (ofMoves ms) := by
  intro ms hb hpos h45
  cases ms with
  | nil => simp at hpos
  | cons m0 ms2 =>
      rw [formatSolution, solutionMoves_ofMoves _ hb h45, List.map_cons,
        parseSolution_cons]
      rw [if_pos (List.getLast?_concat _), List.dropLast_concat]
      rw [splitComma_tokens [colChar m0] (ms2.map fun mv => [colChar mv])
        (by
          intro c hc
          rw [List.mem_singleton.mp hc]
          exact (colChar_not_special m0).2)
        (by
          intro u hu c hc
          obtain ⟨mv, _, rfl⟩ := List.mem_map.mp hu
          rw [List.mem_singleton.mp hc]
          exact (colChar_not_special mv).2)]
      rw [List.map_map]
      have hspec := parseSolutionGo_spec
        ([colChar m0] :: ms2.map ((fun u => ' ' :: u) ∘ fun mv => [colChar mv]))
        (m0 :: ms2) []
        (by simp)
        (by
          intro p hplt
          cases p with
          | zero =>
              simp only [List.getD_cons_zero]
              have hm0 := hb m0 (List.mem_cons_self m0 ms2)
              rw [trim_nonWs_single _ (colChar_not_special m0).1,
                parseMoveToken_colChar m0 hm0.1 hm0.2]
          | succ p2 =>
              simp only [List.getD_cons_succ]
              simp only [List.length_cons, List.length_map] at hplt
              have hp2 : p2 < ms2.length := by omega
              rw [getD_map_lt ms2 _ p2 0 [] hp2]
              simp only [Function.comp]
              rw [trim_space_cons, trim_nonWs_single _
                (colChar_not_special (ms2.getD p2 0)).1]
              have hmem : ms2.getD p2 0 ∈ ms2 := by
                rw [List.getD_eq_getElem ms2 0 hp2]
                exact List.getElem_mem hp2
              have hmv := hb (ms2.getD p2 0) (List.mem_cons_of_mem m0 hmem)
              exact parseMoveToken_colChar _ hmv.1 hmv.2)
        (by
          have h2 := h45
          simp only [List.length_cons] at h2
          simp only [List.length_nil, List.length_cons]
          omega)
      simp only [List.length_nil, List.nil_append, Nat.zero_add, Nat.sub_zero]
        at hspec
      show parseSolutionGo 0 (List.replicate 45 0)
          ([colChar m0] :: List.map ((fun u => ' ' :: u) ∘ fun mv => [colChar mv]) ms2) =
        some (ofMoves (m0 :: ms2))
      rw [hspec, ofMoves, take_all_of_le' _ 45 h45]

/-- Witness for the amended C9 at the concrete move list `A B C D E`. -/
theorem solution_roundtrip_amended_witness :
    parseSolution (formatSolution (ofMoves [1, 2, 3, 4, 5])) =
      some (ofMoves [1, 2, 3, 4, 5]) :=
  solution_roundtrip_amended [1, 2, 3, 4, 5] (by decide) (by decide) (by decide)


-- Stage A: run-length bounds and occupancy

theorem straightLenAscend_le : ∀ (rest : List (Option Card)) (c : Card),
    straightLenAscend c rest ≤ 1 + rest.length := by
  intro rest
  induction rest with
  | nil => intro c; simp [straightLenAscend]
  | cons hd tl ih =>
      intro c
      cases hd with
      | none => simp [straightLenAscend]
      | some c2 =>
          rw [straightLenAscend]
          by_cases h : c.rank.next = c2.rank
          · rw [if_pos h]
            have := ih c2
            simp only [List.length_cons]
            omega
          · rw [if_neg h]
            simp only [List.length_cons]
            omega

theorem straightLenDescend_le : ∀ (rest : List (Option Card)) (c : Card),
    straightLenDescend c rest ≤ 1 + rest.length := by
  intro rest
  induction rest with
  | nil => intro c; simp [straightLenDescend]
  | cons hd tl ih =>
      intro c
      cases hd with
      | none => simp [straightLenDescend]
      | some c2 =>
          rw [straightLenDescend]
          by_cases h : c.rank.prev = c2.rank
          · rw [if_pos h]
            have := ih c2
            simp only [List.length_cons]
            omega
          · rw [if_neg h]
            simp only [List.length_cons]
            omega

theorem straightLen_le (l : List (Option Card)) : straightLen l ≤ l.length := by
  cases l with
  | nil => simp [straightLen]
  | cons hd tl =>
      cases hd with
      | none => simp [straightLen]
      | some f =>
          rw [straightLen]
          by_cases h : 2 ≤ straightLenAscend f tl
          · rw [if_pos h]
            have := straightLenAscend_le tl f
            simp only [List.length_cons]
            omega
          · rw [if_neg h]
            have := straightLenDescend_le tl f
            simp only [List.length_cons]
            omega

theorem suitRun_le (s : CardSuit) : ∀ l : List (Option Card), suitRun s l ≤ l.length := by
  intro l
  induction l with
  | nil => simp [suitRun]
  | cons hd tl ih =>
      cases hd with
      | none => simp [suitRun]
      | some c =>
          rw [suitRun]
          by_cases h : c.suit = s
          · rw [if_pos h]; simp only [List.length_cons]; omega
          · rw [if_neg h]; simp only [List.length_cons]; omega

theorem rankRun_le (r : CardRank) : ∀ l : List (Option Card), rankRun r l ≤ l.length := by
  intro l
  induction l with
  | nil => simp [rankRun]
  | cons hd tl ih =>
      cases hd with
      | none => simp [rankRun]
      | some c =>
          rw [rankRun]
          by_cases h : c.rank = r
          · rw [if_pos h]; simp only [List.length_cons]; omega
          · rw [if_neg h]; simp only [List.length_cons]; omega

theorem flushLen_le (l : List (Option Card)) : flushLen l ≤ l.length := by
  cases l with
  | nil => simp [flushLen]
  | cons hd tl =>
      cases hd with
      | none => simp [flushLen]
      | some f =>
          rw [flushLen]
          have := suitRun_le f.suit tl
          simp only [List.length_cons]
          omega

theorem nOfKindLen_le (l : List (Option Card)) : nOfKindLen l ≤ l.length := by
  cases l with
  | nil => simp [nOfKindLen]
  | cons hd tl =>
      cases hd with
      | none => simp [nOfKindLen]
      | some f =>
          rw [nOfKindLen]
          have := rankRun_le f.rank tl
          simp only [List.length_cons]
          omega

theorem straightLenAscend_occ : ∀ (rest : List (Option Card)) (c : Card) (m : Nat),
    m + 1 < straightLenAscend c rest → (rest.getD m none).isSome := by
  intro rest
  induction rest with
  | nil => intro c m h; simp [straightLenAscend] at h
  | cons hd tl ih =>
      intro c m h
      cases hd with
      | none => simp [straightLenAscend] at h
      | some c2 =>
          rw [straightLenAscend] at h
          by_cases hr : c.rank.next = c2.rank
          · rw [if_pos hr] at h
            cases m with
            | zero => rfl
            | succ m2 =>
                rw [List.getD_cons_succ]
                exact ih c2 m2 (by omega)
          · rw [if_neg hr] at h
            omega

theorem straightLenDescend_occ : ∀ (rest : List (Option Card)) (c : Card) (m : Nat),
    m + 1 < straightLenDescend c rest → (rest.getD m none).isSome := by
  intro rest
  induction rest with
  | nil => intro c m h; simp [straightLenDescend] at h
  | cons hd tl ih =>
      intro c m h
      cases hd with
      | none => simp [straightLenDescend] at h
      | some c2 =>
          rw [straightLenDescend] at h
          by_cases hr : c.rank.prev = c2.rank
          · rw [if_pos hr] at h
            cases m with
            | zero => rfl
            | succ m2 =>
                rw [List.getD_cons_succ]
                exact ih c2 m2 (by omega)
          · rw [if_neg hr] at h
            omega

theorem straightLen_occ (l : List (Option Card)) (m : Nat)
    (h : m < straightLen l) : (l.getD m none).isSome := by
  cases l with
  | nil => simp [straightLen] at h
  | cons hd tl =>
      cases hd with
      | none => simp [straightLen] at h
      | some f =>
          rw [straightLen] at h
          by_cases ha : 2 ≤ straightLenAscend f tl
          · rw [if_pos ha] at h
            cases m with
            | zero => rfl
            | succ m2 =>
                rw [List.getD_cons_succ]
                exact straightLenAscend_occ tl f m2 (by omega)
          · rw [if_neg ha] at h
            cases m with
            | zero => rfl
            | succ m2 =>
                rw [List.getD_cons_succ]
                exact straightLenDescend_occ tl f m2 (by omega)

theorem suitRun_occ (s : CardSuit) : ∀ (l : List (Option Card)) (m : Nat),
    m < suitRun s l → (l.getD m none).isSome := by
  intro l
  induction l with
  | nil => intro m h; simp [suitRun] at h
  | cons hd tl ih =>
      intro m h
      cases hd with
      | none => simp [suitRun] at h
      | some c =>
          rw [suitRun] at h
          by_cases hs : c.suit = s
          · rw [if_pos hs] at h
            cases m with
            | zero => rfl
            | succ m2 =>
                rw [List.getD_cons_succ]
                exact ih m2 (by omega)
          · rw [if_neg hs] at h
            omega

theorem rankRun_occ (r : CardRank) : ∀ (l : List (Option Card)) (m : Nat),
    m < rankRun r l → (l.getD m none).isSome := by
  intro l
  induction l with
  | nil => intro m h; simp [rankRun] at h
  | cons hd tl ih =>
      intro m h
      cases hd with
      | none => simp [rankRun] at h
      | some c =>
          rw [rankRun] at h
          by_cases hs : c.rank = r
          · rw [if_pos hs] at h
            cases m with
            | zero => rfl
            | succ m2 =>
                rw [List.getD_cons_succ]
                exact ih m2 (by omega)
          · rw [if_neg hs] at h
            omega

theorem flushLen_occ (l : List (Option Card)) (m : Nat)
    (h : m < flushLen l) : (l.getD m none).isSome := by
  cases l with
  | nil => simp [flushLen] at h
  | cons hd tl =>
      cases hd with
      | none => simp [flushLen] at h
      | some f =>
          rw [flushLen] at h
          cases m with
          | zero => rfl
          | succ m2 =>
              rw [List.getD_cons_succ]
              exact suitRun_occ f.suit tl m2 (by omega)

theorem nOfKindLen_occ (l : List (Option Card)) (m : Nat)
    (h : m < nOfKindLen l) : (l.getD m none).isSome := by
  cases l with
  | nil => simp [nOfKindLen] at h
  | cons hd tl =>
      cases hd with
      | none => simp [nOfKindLen] at h
      | some f =>
          rw [nOfKindLen] at h
          cases m with
          | zero => rfl
          | succ m2 =>
              rw [List.getD_cons_succ]
              exact rankRun_occ f.rank tl m2 (by omega)

-- Stage B: yakuLen

theorem yakuLen_le (cond : YakuMask → Bool) : ∀ l : List YakuMask,
    yakuLen cond l ≤ l.length := by
  intro l
  induction l with
  | nil => simp [yakuLen]
  | cons hd tl ih =>
      rw [yakuLen]
      by_cases h : cond hd = true
      · rw [if_pos h]; simp only [List.length_cons]; omega
      · rw [if_neg h]; simp only [List.length_cons]; omega

theorem yakuLen_sat (cond : YakuMask → Bool) : ∀ (l : List YakuMask) (m : Nat),
    m < yakuLen cond l → cond (l.getD m maskZero) = true := by
  intro l
  induction l with
  | nil => intro m h; simp [yakuLen] at h
  | cons hd tl ih =>
      intro m h
      rw [yakuLen] at h
      by_cases hc : cond hd = true
      · rw [if_pos hc] at h
        cases m with
        | zero => exact hc
        | succ m2 =>
            rw [List.getD_cons_succ]
            exact ih m2 (by omega)
      · rw [if_neg hc] at h
        omega

theorem yakuLen_ge (cond : YakuMask → Bool) : ∀ (l : List YakuMask) (k : Nat),
    k ≤ l.length → (∀ m, m < k → cond (l.getD m maskZero) = true) →
    k ≤ yakuLen cond l := by
  intro l
  induction l with
  | nil => intro k hk _; simp at hk; omega
  | cons hd tl ih =>
      intro k hk hm
      cases k with
      | zero => omega
      | succ k2 =>
          have h0 : cond hd = true := hm 0 (by omega)
          rw [yakuLen, if_pos h0]
          have := ih k2 (by simp at hk; omega)
            (fun m hm2 => by
              have := hm (m + 1) (by omega)
              rwa [List.getD_cons_succ] at this)
          omega

-- Stage C: lineRun characterisation

theorem lineRun_some (lenF : List (Option Card) → Nat) (line : List (Option Card))
    (a len : Nat) (h : lineRun lenF line = some (a, len)) :
    a ≤ 2 ∧ len = lenF (line.drop a) ∧ 3 ≤ len := by
  rw [lineRun] at h
  by_cases h0 : 3 ≤ lenF line
  · rw [if_pos h0] at h
    cases h
    exact ⟨by omega, by simp, h0⟩
  · rw [if_neg h0] at h
    by_cases h1 : 3 ≤ lenF (line.drop 1)
    · rw [if_pos h1] at h
      cases h
      exact ⟨by omega, rfl, h1⟩
    · rw [if_neg h1] at h
      by_cases h2 : 3 ≤ lenF (line.drop 2)
      · rw [if_pos h2] at h
        cases h
        exact ⟨by omega, rfl, h2⟩
      · rw [if_neg h2] at h
        cases h

theorem lineRunCol_some (lenF : List (Option Card) → Nat) (line : List (Option Card))
    (a len : Nat) (h : lineRunCol lenF line = some (a, len)) :
    a ≤ 2 ∧ len = lenF (line.drop a) ∧ 3 ≤ len := by
  rw [lineRunCol] at h
  by_cases e0 : (line.getD 0 none).isNone = true
  · rw [if_pos e0] at h; cases h
  · rw [if_neg e0] at h
    by_cases h0 : 3 ≤ lenF line
    · rw [if_pos h0] at h
      cases h
      exact ⟨by omega, by simp, h0⟩
    · rw [if_neg h0] at h
      by_cases e1 : (line.getD 1 none).isNone = true
      · rw [if_pos e1] at h; cases h
      · rw [if_neg e1] at h
        by_cases h1 : 3 ≤ lenF (line.drop 1)
        · rw [if_pos h1] at h
          cases h
          exact ⟨by omega, rfl, h1⟩
        · rw [if_neg h1] at h
          by_cases e2 : (line.getD 2 none).isNone = true
          · rw [if_pos e2] at h; cases h
          · rw [if_neg e2] at h
            by_cases h2 : 3 ≤ lenF (line.drop 2)
            · rw [if_pos h2] at h
              cases h
              exact ⟨by omega, rfl, h2⟩
            · rw [if_neg h2] at h
              cases h

-- Stage D: markIdxs

theorem markIdxs_cons (upd : YakuMask → YakuMask) (i : Nat) (t : List Nat)
    (yb : YakuBoard) :
    markIdxs upd (i :: t) yb =
      markIdxs upd t (yb.set i (upd (yb.getD i maskZero))) := rfl

theorem markIdxs_length (upd : YakuMask → YakuMask) : ∀ (idxs : List Nat)
    (yb : YakuBoard), (markIdxs upd idxs yb).length = yb.length := by
  intro idxs
  induction idxs with
  | nil => intro yb; rfl
  | cons i t ih =>
      intro yb
      rw [markIdxs_cons, ih, List.length_set]

theorem markIdxs_getD_notMem (upd : YakuMask → YakuMask) : ∀ (idxs : List Nat)
    (yb : YakuBoard) (j : Nat), j ∉ idxs →
    (markIdxs upd idxs yb).getD j maskZero = yb.getD j maskZero := by
  intro idxs
  induction idxs with
  | nil => intro yb j _; rfl
  | cons i t ih =>
      intro yb j hj
      rw [markIdxs_cons, ih _ _ (fun hm => hj (List.mem_cons_of_mem i hm)),
        getD_set_ne _ _ _ (fun hEq => hj (by rw [← hEq]; exact List.mem_cons_self i t))]

theorem markIdxs_pointwise (f : YakuMask → Bool) (upd : YakuMask → YakuMask)
    (hu : ∀ m, f (upd m) = f m) : ∀ (idxs : List Nat) (yb : YakuBoard) (j : Nat),
    f ((markIdxs upd idxs yb).getD j maskZero) = f (yb.getD j maskZero) := by
  intro idxs
  induction idxs with
  | nil => intro yb j; rfl
  | cons i t ih =>
      intro yb j
      rw [markIdxs_cons, ih]
      by_cases hij : i = j
      · subst hij
        by_cases hlt : i < yb.length
        · rw [getD_set_self _ _ _ hlt, hu]
        · rw [List.set_eq_of_length_le (by omega)]
      · rw [getD_set_ne _ _ _ hij]

theorem markIdxs_mono (P : YakuMask → Prop) (upd : YakuMask → YakuMask)
    (hu : ∀ m, P m → P (upd m)) : ∀ (idxs : List Nat) (yb : YakuBoard) (j : Nat),
    P (yb.getD j maskZero) → P ((markIdxs upd idxs yb).getD j maskZero) := by
  intro idxs
  induction idxs with
  | nil => intro yb j h; exact h
  | cons i t ih =>
      intro yb j h
      rw [markIdxs_cons]
      apply ih
      by_cases hij : i = j
      · subst hij
        by_cases hlt : i < yb.length
        · rw [getD_set_self _ _ _ hlt]
          exact hu _ h
        · rw [List.set_eq_of_length_le (by omega)]
          exact h
      · rw [getD_set_ne _ _ _ hij]
        exact h

theorem markIdxs_sets (P : YakuMask → Prop) (upd : YakuMask → YakuMask)
    (hset : ∀ m, P (upd m)) : ∀ (idxs : List Nat) (yb : YakuBoard) (j : Nat),
    j ∈ idxs → j < yb.length → P ((markIdxs upd idxs yb).getD j maskZero) := by
  intro idxs
  induction idxs with
  | nil => intro yb j hj _; cases hj
  | cons i t ih =>
      intro yb j hj hlt
      rw [markIdxs_cons]
      rcases List.mem_cons.mp hj with rfl | hj2
      · apply markIdxs_mono P upd (fun m _ => hset m) t _ j
        rw [getD_set_self _ _ _ hlt]
        exact hset _
      · exact ih _ j hj2 (by rw [List.length_set]; exact hlt)

-- Stage E: detectPhase

theorem rowOf_length (b : Board) (r : Nat) : (rowOf b r).length = 5 := by
  simp [rowOf]

theorem rowOf_getD (b : Board) (r c : Nat) (h : c < 5) :
    (rowOf b r).getD c none = b.getD (5 * c + r) none :=
  getD_map_range _ _ h

theorem colOf_getD (b : Board) (c i : Nat) (h : i < 5) :
    (colOf b c).getD i none = b.getD (5 * c + i) none := by
  rw [colOf, getD_take _ _ h, getD_drop]

theorem ybRowOf_length (yb : YakuBoard) (r : Nat) : (ybRowOf yb r).length = 5 := by
  simp [ybRowOf]

theorem ybRowOf_getD (yb : YakuBoard) (r c : Nat) (h : c < 5) :
    (ybRowOf yb r).getD c maskZero = yb.getD (5 * c + r) maskZero :=
  getD_map_range _ _ h

theorem ybColOf_getD (yb : YakuBoard) (c i : Nat) (h : i < 5) :
    (ybColOf yb c).getD i maskZero = yb.getD (5 * c + i) maskZero := by
  rw [ybColOf, getD_take _ _ h, getD_drop]

theorem ybColOf_length (yb : YakuBoard) (c : Nat) (hyb : yb.length = 25)
    (hc : c < 5) : (ybColOf yb c).length = 5 := by
  simp only [ybColOf, List.length_take, List.length_drop, hyb]
  omega

theorem dpRow_none (lenF : List (Option Card) → Nat) (upd : YakuMask → YakuMask)
    (b : Board) (yb : YakuBoard) (r : Nat)
    (h : lineRun lenF (rowOf b r) = none) :
    detectPhaseRow lenF upd b yb r = yb := by
  rw [detectPhaseRow, h]

theorem dpRow_some (lenF : List (Option Card) → Nat) (upd : YakuMask → YakuMask)
    (b : Board) (yb : YakuBoard) (r a len : Nat)
    (h : lineRun lenF (rowOf b r) = some (a, len)) :
    detectPhaseRow lenF upd b yb r = markIdxs upd (rowRunIdxs r a len) yb := by
  rw [detectPhaseRow, h]

theorem dpCol_none (lenF : List (Option Card) → Nat) (upd : YakuMask → YakuMask)
    (b : Board) (yb : YakuBoard) (c : Nat)
    (h : lineRunCol lenF (colOf b c) = none) :
    detectPhaseCol lenF upd b yb c = yb := by
  rw [detectPhaseCol, h]

theorem dpCol_some (lenF : List (Option Card) → Nat) (upd : YakuMask → YakuMask)
    (b : Board) (yb : YakuBoard) (c a len : Nat)
    (h : lineRunCol lenF (colOf b c) = some (a, len)) :
    detectPhaseCol lenF upd b yb c = markIdxs upd (colRunIdxs c a len) yb := by
  rw [detectPhaseCol, h]

theorem dpRow_length (lenF : List (Option Card) → Nat) (upd : YakuMask → YakuMask)
    (b : Board) (yb : YakuBoard) (r : Nat) :
    (detectPhaseRow lenF upd b yb r).length = yb.length := by
  rw [detectPhaseRow]
  cases h : lineRun lenF (rowOf b r) with
  | none => rfl
  | some p => exact markIdxs_length _ _ _

theorem dpCol_length (lenF : List (Option Card) → Nat) (upd : YakuMask → YakuMask)
    (b : Board) (yb : YakuBoard) (c : Nat) :
    (detectPhaseCol lenF upd b yb c).length = yb.length := by
  rw [detectPhaseCol]
  cases h : lineRunCol lenF (colOf b c) with
  | none => rfl
  | some p => exact markIdxs_length _ _ _

theorem detectPhase_length (lenF : List (Option Card) → Nat)
    (upd : YakuMask → YakuMask) (b : Board) (yb : YakuBoard) :
    (detectPhase lenF upd b yb).length = yb.length := by
  rw [detectPhase]
  have h1 := foldl_inv (fun acc => acc.length = yb.length)
    (fun acc r => detectPhaseRow lenF upd b acc r) (List.range 5)
    (fun acc x _ hI => by dsimp only; rw [dpRow_length, hI]) yb rfl
  exact foldl_inv (fun acc => acc.length = yb.length)
    (fun acc c => detectPhaseCol lenF upd b acc c) (List.range 5)
    (fun acc x _ hI => by dsimp only; rw [dpCol_length, hI]) _ h1

theorem detectPhase_pointwise (f : YakuMask → Bool) (lenF : List (Option Card) → Nat)
    (upd : YakuMask → YakuMask) (hu : ∀ m, f (upd m) = f m) (b : Board)
    (yb : YakuBoard) (j : Nat) :
    f ((detectPhase lenF upd b yb).getD j maskZero) = f (yb.getD j maskZero) := by
  rw [detectPhase]
  have hrow : ∀ (acc : YakuBoard) (r : Nat),
      f ((detectPhaseRow lenF upd b acc r).getD j maskZero) =
        f (acc.getD j maskZero) := by
    intro acc r
    rw [detectPhaseRow]
    cases h : lineRun lenF (rowOf b r) with
    | none => rfl
    | some p => exact markIdxs_pointwise f upd hu _ _ _
  have hcol : ∀ (acc : YakuBoard) (c : Nat),
      f ((detectPhaseCol lenF upd b acc c).getD j maskZero) =
        f (acc.getD j maskZero) := by
    intro acc c
    rw [detectPhaseCol]
    cases h : lineRunCol lenF (colOf b c) with
    | none => rfl
    | some p => exact markIdxs_pointwise f upd hu _ _ _
  have h1 := foldl_inv (fun acc => f (acc.getD j maskZero) = f (yb.getD j maskZero))
    (fun acc r => detectPhaseRow lenF upd b acc r) (List.range 5)
    (fun acc x _ hI => by dsimp only; rw [hrow, hI]) yb rfl
  exact foldl_inv (fun acc => f (acc.getD j maskZero) = f (yb.getD j maskZero))
    (fun acc c => detectPhaseCol lenF upd b acc c) (List.range 5)
    (fun acc x _ hI => by dsimp only; rw [hcol, hI]) _ h1

theorem detectPhase_mono (P : YakuMask → Prop) (lenF : List (Option Card) → Nat)
    (upd : YakuMask → YakuMask) (hu : ∀ m, P m → P (upd m)) (b : Board)
    (yb : YakuBoard) (j : Nat) (h : P (yb.getD j maskZero)) :
    P ((detectPhase lenF upd b yb).getD j maskZero) := by
  rw [detectPhase]
  have hrow : ∀ (acc : YakuBoard) (r : Nat), P (acc.getD j maskZero) →
      P ((detectPhaseRow lenF upd b acc r).getD j maskZero) := by
    intro acc r hP
    rw [detectPhaseRow]
    cases hl : lineRun lenF (rowOf b r) with
    | none => exact hP
    | some p => exact markIdxs_mono P upd hu _ _ _ hP
  have hcol : ∀ (acc : YakuBoard) (c : Nat), P (acc.getD j maskZero) →
      P ((detectPhaseCol lenF upd b acc c).getD j maskZero) := by
    intro acc c hP
    rw [detectPhaseCol]
    cases hl : lineRunCol lenF (colOf b c) with
    | none => exact hP
    | some p => exact markIdxs_mono P upd hu _ _ _ hP
  have h1 := foldl_inv (fun acc => P (acc.getD j maskZero))
    (fun acc r => detectPhaseRow lenF upd b acc r) (List.range 5)
    (fun acc x _ hI => by dsimp only; exact hrow acc x hI) yb h
  exact foldl_inv (fun acc => P (acc.getD j maskZero))
    (fun acc c => detectPhaseCol lenF upd b acc c) (List.range 5)
    (fun acc x _ hI => by dsimp only; exact hcol acc x hI) _ h1

theorem detectPhase_id (lenF : List (Option Card) → Nat) (upd : YakuMask → YakuMask)
    (b : Board) (yb : YakuBoard)
    (hrows : ∀ r, r ∈ List.range 5 → lineRun lenF (rowOf b r) = none)
    (hcols : ∀ c, c ∈ List.range 5 → lineRunCol lenF (colOf b c) = none) :
    detectPhase lenF upd b yb = yb := by
  rw [detectPhase]
  rw [foldl_fix (fun acc x hx => dpRow_none _ _ _ _ _ (hrows x hx))]
  exact foldl_fix (fun acc x hx => dpCol_none _ _ _ _ _ (hcols x hx))

theorem detectPhase_establish_row (P : YakuMask → Prop)
    (lenF : List (Option Card) → Nat) (upd : YakuMask → YakuMask)
    (hset : ∀ m, P (upd m)) (hpres : ∀ m, P m → P (upd m))
    (b : Board) (yb : YakuBoard) (r a len j : Nat)
    (hr : r ∈ List.range 5) (hl : lineRun lenF (rowOf b r) = some (a, len))
    (hj : j ∈ rowRunIdxs r a len) (hjlen : j < yb.length) :
    P ((detectPhase lenF upd b yb).getD j maskZero) := by
  rw [detectPhase]
  have hrowfold := foldl_establish
    (fun acc => P (acc.getD j maskZero)) (fun acc => acc.length = yb.length)
    (fun acc r2 => detectPhaseRow lenF upd b acc r2) (List.range 5) r hr
    (fun acc y hI => by dsimp only; rw [dpRow_length]; exact hI)
    (fun acc hI => by
      dsimp only
      rw [dpRow_some lenF upd b acc r a len hl]
      exact markIdxs_sets P upd hset _ _ _ hj (by rw [hI]; exact hjlen))
    (fun acc y hP hI => by
      dsimp only
      rw [detectPhaseRow]
      cases h2 : lineRun lenF (rowOf b y) with
      | none => exact hP
      | some p => exact markIdxs_mono P upd hpres _ _ _ hP)
    yb rfl
  exact foldl_inv (fun acc => P (acc.getD j maskZero))
    (fun acc c => detectPhaseCol lenF upd b acc c) (List.range 5)
    (fun acc x _ hI => by
      dsimp only
      rw [detectPhaseCol]
      cases h2 : lineRunCol lenF (colOf b x) with
      | none => exact hI
      | some p => exact markIdxs_mono P upd hpres _ _ _ hI) _ hrowfold

theorem detectPhase_establish_col (P : YakuMask → Prop)
    (lenF : List (Option Card) → Nat) (upd : YakuMask → YakuMask)
    (hset : ∀ m, P (upd m)) (hpres : ∀ m, P m → P (upd m))
    (b : Board) (yb : YakuBoard) (c a len j : Nat)
    (hc : c ∈ List.range 5) (hl : lineRunCol lenF (colOf b c) = some (a, len))
    (hj : j ∈ colRunIdxs c a len) (hjlen : j < yb.length) :
    P ((detectPhase lenF upd b yb).getD j maskZero) := by
  rw [detectPhase]
  have hlen1 : ((List.range 5).foldl
      (fun acc r => detectPhaseRow lenF upd b acc r) yb).length = yb.length :=
    foldl_inv (fun acc => acc.length = yb.length)
      (fun acc r => detectPhaseRow lenF upd b acc r) (List.range 5)
      (fun acc x _ hI => by dsimp only; rw [dpRow_length, hI]) yb rfl
  exact foldl_establish
    (fun acc => P (acc.getD j maskZero)) (fun acc => acc.length = yb.length)
    (fun acc c2 => detectPhaseCol lenF upd b acc c2) (List.range 5) c hc
    (fun acc y hI => by dsimp only; rw [dpCol_length]; exact hI)
    (fun acc hI => by
      dsimp only
      rw [dpCol_some lenF upd b acc c a len hl]
      exact markIdxs_sets P upd hset _ _ _ hj (by rw [hI]; exact hjlen))
    (fun acc y hP hI => by
      dsimp only
      rw [detectPhaseCol]
      cases h2 : lineRunCol lenF (colOf b y) with
      | none => exact hP
      | some p => exact markIdxs_mono P upd hpres _ _ _ hP)
    _ hlen1

theorem detectPhase_unchanged_at (lenF : List (Option Card) → Nat)
    (upd : YakuMask → YakuMask) (b : Board) (yb : YakuBoard) (j : Nat)
    (hrow : ∀ r, r ∈ List.range 5 → ∀ a len,
      lineRun lenF (rowOf b r) = some (a, len) → j ∉ rowRunIdxs r a len)
    (hcol : ∀ c, c ∈ List.range 5 → ∀ a len,
      lineRunCol lenF (colOf b c) = some (a, len) → j ∉ colRunIdxs c a len) :
    (detectPhase lenF upd b yb).getD j maskZero = yb.getD j maskZero := by
  rw [detectPhase]
  have h1 := foldl_inv (fun acc => acc.getD j maskZero = yb.getD j maskZero)
    (fun acc r => detectPhaseRow lenF upd b acc r) (List.range 5)
    (fun acc x hx hI => by
      dsimp only
      rw [detectPhaseRow]
      cases h2 : lineRun lenF (rowOf b x) with
      | none => exact hI
      | some p =>
          rw [markIdxs_getD_notMem upd _ _ _ (hrow x hx p.1 p.2 h2)]
          exact hI) yb rfl
  exact foldl_inv (fun acc => acc.getD j maskZero = yb.getD j maskZero)
    (fun acc c => detectPhaseCol lenF upd b acc c) (List.range 5)
    (fun acc x hx hI => by
      dsimp only
      rw [detectPhaseCol]
      cases h2 : lineRunCol lenF (colOf b x) with
      | none => exact hI
      | some p =>
          rw [markIdxs_getD_notMem upd _ _ _ (hcol x hx p.1 p.2 h2)]
          exact hI) _ h1

-- Stage F: from a set bit to a marked run

theorem rowRunIdxs_mem (r a len m : Nat) (hm : m < len) :
    5 * (a + m) + r ∈ rowRunIdxs r a len := by
  rw [rowRunIdxs]
  exact List.mem_map.mpr ⟨m, List.mem_range.mpr hm, rfl⟩

theorem colRunIdxs_mem (c a len m : Nat) (hm : m < len) :
    5 * c + (a + m) ∈ colRunIdxs c a len := by
  rw [colRunIdxs]
  exact List.mem_map.mpr ⟨m, List.mem_range.mpr hm, rfl⟩

theorem phase_bit_run (lenF : List (Option Card) → Nat) (upd : YakuMask → YakuMask)
    (f : YakuMask → Bool)
    (hset : ∀ m, f (upd m) = true)
    (hlenF : ∀ line, lenF line ≤ line.length)
    (b : Board) (ybIn : YakuBoard) (hlen : ybIn.length = 25)
    (hin : ∀ j, f (ybIn.getD j maskZero) = false)
    (j : Nat) (h : f ((detectPhase lenF upd b ybIn).getD j maskZero) = true) :
    (∃ r a len, r < 5 ∧ lineRun lenF (rowOf b r) = some (a, len) ∧ a + len ≤ 5 ∧
      ∀ m, m < len →
        f ((detectPhase lenF upd b ybIn).getD (5 * (a + m) + r) maskZero) = true) ∨
    (∃ c a len, c < 5 ∧ lineRunCol lenF (colOf b c) = some (a, len) ∧ a + len ≤ 5 ∧
      ∀ m, m < len →
        f ((detectPhase lenF upd b ybIn).getD (5 * c + (a + m)) maskZero) = true) := by
  have hpres : ∀ m, f m = true → f (upd m) = true := fun m _ => hset m
  by_cases hex : (∃ r, r ∈ List.range 5 ∧ ∃ p : Nat × Nat,
      lineRun lenF (rowOf b r) = some p) ∨
      (∃ c, c ∈ List.range 5 ∧ ∃ p : Nat × Nat, lineRunCol lenF (colOf b c) = some p)
  · rcases hex with ⟨r, hr, ⟨⟨a, len⟩, hp⟩⟩ | ⟨c, hc, ⟨⟨a, len⟩, hp⟩⟩
    · left
      obtain ⟨ha2, hlenEq, h3⟩ := lineRun_some lenF _ a len hp
      have hbound : a + len ≤ 5 := by
        have := hlenF ((rowOf b r).drop a)
        rw [← hlenEq] at this
        rw [List.length_drop, rowOf_length] at this
        omega
      refine ⟨r, a, len, List.mem_range.mp hr, hp, hbound, ?_⟩
      intro m hm
      have hjlt : 5 * (a + m) + r < 25 := by
        have hr5 := List.mem_range.mp hr
        omega
      exact detectPhase_establish_row (fun mask => f mask = true) lenF upd hset hpres
        b ybIn r a len (5 * (a + m) + r) hr hp (rowRunIdxs_mem r a len m hm)
        (by rw [hlen]; exact hjlt)
    · right
      obtain ⟨ha2, hlenEq, h3⟩ := lineRunCol_some lenF _ a len hp
      have hbound : a + len ≤ 5 := by
        have := hlenF ((colOf b c).drop a)
        rw [← hlenEq] at this
        rw [List.length_drop] at this
        have hclen : (colOf b c).length ≤ 5 := by
          simp [colOf]
        omega
      refine ⟨c, a, len, List.mem_range.mp hc, hp, hbound, ?_⟩
      intro m hm
      have hjlt : 5 * c + (a + m) < 25 := by
        have hc5 := List.mem_range.mp hc
        omega
      exact detectPhase_establish_col (fun mask => f mask = true) lenF upd hset hpres
        b ybIn c a len (5 * c + (a + m)) hc hp (colRunIdxs_mem c a len m hm)
        (by rw [hlen]; exact hjlt)
  · exfalso
    push_neg at hex
    obtain ⟨hex1, hex2⟩ := hex
    have hrows : ∀ r, r ∈ List.range 5 → lineRun lenF (rowOf b r) = none := by
      intro r hr
      cases ho : lineRun lenF (rowOf b r) with
      | none => rfl
      | some p => exact absurd ho (hex1 r hr p)
    have hcols : ∀ c, c ∈ List.range 5 → lineRunCol lenF (colOf b c) = none := by
      intro c hc
      cases ho : lineRunCol lenF (colOf b c) with
      | none => rfl
      | some p => exact absurd ho (hex2 c hc p)
    rw [detectPhase_id lenF upd b ybIn hrows hcols] at h
    rw [hin j] at h
    cases h

theorem getD_replicate_self {α : Type} (n j : Nat) (a : α) :
    (List.replicate n a).getD j a = a := by
  induction n generalizing j with
  | zero => cases j <;> rfl
  | succ k ih =>
      cases j with
      | zero => rfl
      | succ j2 => exact ih j2

theorem ybNew_getD (j : Nat) : ybNew.getD j maskZero = maskZero :=
  getD_replicate_self 25 j maskZero

theorem bit_run_transfer (lenF : List (Option Card) → Nat)
    (upd : YakuMask → YakuMask) (f : YakuMask → Bool)
    (hset : ∀ m, f (upd m) = true)
    (hlenF : ∀ line, lenF line ≤ line.length)
    (b : Board) (ybIn : YakuBoard) (hlen : ybIn.length = 25)
    (hin : ∀ j, f (ybIn.getD j maskZero) = false)
    (hpt : ∀ j2, f ((detectYaku b).getD j2 maskZero) =
        f ((detectPhase lenF upd b ybIn).getD j2 maskZero))
    (j : Nat) (h : f ((detectYaku b).getD j maskZero) = true) :
    (∃ r a len, r < 5 ∧ lineRun lenF (rowOf b r) = some (a, len) ∧ a + len ≤ 5 ∧
      ∀ m, m < len →
        f ((detectYaku b).getD (5 * (a + m) + r) maskZero) = true) ∨
    (∃ c a len, c < 5 ∧ lineRunCol lenF (colOf b c) = some (a, len) ∧ a + len ≤ 5 ∧
      ∀ m, m < len →
        f ((detectYaku b).getD (5 * c + (a + m)) maskZero) = true) := by
  rw [hpt] at h
  rcases phase_bit_run lenF upd f hset hlenF b ybIn hlen hin j h with
    ⟨r, a, len, h1, h2, h3, h4⟩ | ⟨c, a, len, h1, h2, h3, h4⟩
  · exact Or.inl ⟨r, a, len, h1, h2, h3, fun m hm => by rw [hpt]; exact h4 m hm⟩
  · exact Or.inr ⟨c, a, len, h1, h2, h3, fun m hm => by rw [hpt]; exact h4 m hm⟩

theorem detectYaku_length (b : Board) : (detectYaku b).length = 25 := by
  rw [detectYaku, detectNOfKind, detectPhase_length, detectFlush,
    detectPhase_length, detectStraight, detectPhase_length]
  simp [ybNew]

theorem straight_bit_run (b : Board) (j : Nat)
    (h : ((detectYaku b).getD j maskZero).straight = true) :
    (∃ r a len, r < 5 ∧ lineRun straightLen (rowOf b r) = some (a, len) ∧
      a + len ≤ 5 ∧ ∀ m, m < len →
        ((detectYaku b).getD (5 * (a + m) + r) maskZero).straight = true) ∨
    (∃ c a len, c < 5 ∧ lineRunCol straightLen (colOf b c) = some (a, len) ∧
      a + len ≤ 5 ∧ ∀ m, m < len →
        ((detectYaku b).getD (5 * c + (a + m)) maskZero).straight = true) := by
  have hpt : ∀ j2, ((detectYaku b).getD j2 maskZero).straight =
      ((detectPhase straightLen setStraight b ybNew).getD j2 maskZero).straight := by
    intro j2
    rw [detectYaku, detectNOfKind,
      detectPhase_pointwise (fun m => m.straight) nOfKindLen setNOfKind
        (fun m => rfl) b _ j2,
      detectFlush,
      detectPhase_pointwise (fun m => m.straight) flushLen setFlush
        (fun m => rfl) b _ j2,
      detectStraight]
  exact bit_run_transfer straightLen setStraight (fun m => m.straight)
    (fun m => rfl) straightLen_le b ybNew (by simp [ybNew])
    (fun j2 => by rw [ybNew_getD]; rfl) hpt j h

theorem flush_bit_run (b : Board) (j : Nat)
    (h : ((detectYaku b).getD j maskZero).flush = true) :
    (∃ r a len, r < 5 ∧ lineRun flushLen (rowOf b r) = some (a, len) ∧
      a + len ≤ 5 ∧ ∀ m, m < len →
        ((detectYaku b).getD (5 * (a + m) + r) maskZero).flush = true) ∨
    (∃ c a len, c < 5 ∧ lineRunCol flushLen (colOf b c) = some (a, len) ∧
      a + len ≤ 5 ∧ ∀ m, m < len →
        ((detectYaku b).getD (5 * c + (a + m)) maskZero).flush = true) := by
  have hpt : ∀ j2, ((detectYaku b).getD j2 maskZero).flush =
      ((detectPhase flushLen setFlush b (detectStraight b ybNew)).getD j2
        maskZero).flush := by
    intro j2
    rw [detectYaku, detectNOfKind,
      detectPhase_pointwise (fun m => m.flush) nOfKindLen setNOfKind
        (fun m => rfl) b _ j2,
      detectFlush]
  have hinlen : (detectStraight b ybNew).length = 25 := by
    rw [detectStraight, detectPhase_length]
    simp [ybNew]
  have hin : ∀ j2, ((detectStraight b ybNew).getD j2 maskZero).flush = false := by
    intro j2
    rw [detectStraight,
      detectPhase_pointwise (fun m => m.flush) straightLen setStraight
        (fun m => rfl) b _ j2, ybNew_getD]
    rfl
  exact bit_run_transfer flushLen setFlush (fun m => m.flush)
    (fun m => rfl) flushLen_le b (detectStraight b ybNew) hinlen hin hpt j h

theorem kind_bit_run (b : Board) (j : Nat)
    (h : ((detectYaku b).getD j maskZero).kind = true) :
    (∃ r a len, r < 5 ∧ lineRun nOfKindLen (rowOf b r) = some (a, len) ∧
      a + len ≤ 5 ∧ ∀ m, m < len →
        ((detectYaku b).getD (5 * (a + m) + r) maskZero).kind = true) ∨
    (∃ c a len, c < 5 ∧ lineRunCol nOfKindLen (colOf b c) = some (a, len) ∧
      a + len ≤ 5 ∧ ∀ m, m < len →
        ((detectYaku b).getD (5 * c + (a + m)) maskZero).kind = true) := by
  have hpt : ∀ j2, ((detectYaku b).getD j2 maskZero).kind =
      ((detectPhase nOfKindLen setNOfKind b
        (detectFlush b (detectStraight b ybNew))).getD j2 maskZero).kind := by
    intro j2
    rw [detectYaku, detectNOfKind]
  have hinlen : (detectFlush b (detectStraight b ybNew)).length = 25 := by
    rw [detectFlush, detectPhase_length, detectStraight, detectPhase_length]
    simp [ybNew]
  have hin : ∀ j2,
      ((detectFlush b (detectStraight b ybNew)).getD j2 maskZero).kind = false := by
    intro j2
    rw [detectFlush,
      detectPhase_pointwise (fun m => m.kind) flushLen setFlush
        (fun m => rfl) b _ j2,
      detectStraight,
      detectPhase_pointwise (fun m => m.kind) straightLen setStraight
        (fun m => rfl) b _ j2, ybNew_getD]
    rfl
  exact bit_run_transfer nOfKindLen setNOfKind (fun m => m.kind)
    (fun m => rfl) nOfKindLen_le b (detectFlush b (detectStraight b ybNew))
    hinlen hin hpt j h

-- Stage G: prize positivity

theorem prizeStraightFlush_pos (len : Nat) (h3 : 3 ≤ len) (h5 : len ≤ 5) :
    0 < prizeStraightFlush len := by
  interval_cases len <;> decide

theorem prizeStraight_pos (len : Nat) (h3 : 3 ≤ len) (h5 : len ≤ 5) :
    0 < prizeStraight len := by
  interval_cases len <;> decide

theorem prizeFlush_pos (len : Nat) (h3 : 3 ≤ len) (h5 : len ≤ 5) :
    0 < prizeFlush len := by
  interval_cases len <;> decide

theorem prizeNOfKind_pos (len : Nat) (h3 : 3 ≤ len) (h5 : len ≤ 5) :
    0 < prizeNOfKind len := by
  interval_cases len <;> decide

theorem comboMultiplier_pos (n : Nat) : 1 ≤ comboMultiplier n := by
  rw [comboMultiplier]
  split_ifs <;> omega

theorem calcLinePrize_pos (cond : YakuMask → Bool) (prizeF : Nat → Nat)
    (masks : List YakuMask) (hmlen : masks.length = 5) (a : Nat) (ha : a ≤ 2)
    (h3 : 3 ≤ yakuLen cond (masks.drop a))
    (hpos : ∀ len, 3 ≤ len → len ≤ 5 → 0 < prizeF len) :
    0 < calcLinePrize cond prizeF masks := by
  rw [calcLinePrize]
  by_cases h0 : 3 ≤ yakuLen cond masks
  · rw [if_pos h0]
    exact hpos _ h0 (le_trans (yakuLen_le cond masks) (by omega))
  · rw [if_neg h0]
    by_cases h1 : 3 ≤ yakuLen cond (masks.drop 1)
    · rw [if_pos h1]
      refine hpos _ h1 (le_trans (yakuLen_le cond _) ?_)
      rw [List.length_drop, hmlen]
      omega
    · rw [if_neg h1]
      by_cases h2 : 3 ≤ yakuLen cond (masks.drop 2)
      · rw [if_pos h2]
        refine hpos _ h2 (le_trans (yakuLen_le cond _) ?_)
        rw [List.length_drop, hmlen]
        omega
      · exfalso
        interval_cases a
        · rw [List.drop_zero] at h3
          exact h0 h3
        · exact h1 h3
        · exact h2 h3

theorem calcLinePrize_anchor (cond : YakuMask → Bool) (prizeF : Nat → Nat)
    (masks : List YakuMask) (h : calcLinePrize cond prizeF masks ≠ 0) :
    ∃ a, a ≤ 2 ∧ 3 ≤ yakuLen cond (masks.drop a) := by
  rw [calcLinePrize] at h
  by_cases h0 : 3 ≤ yakuLen cond masks
  · exact ⟨0, by omega, by rw [List.drop_zero]; exact h0⟩
  · rw [if_neg h0] at h
    by_cases h1 : 3 ≤ yakuLen cond (masks.drop 1)
    · exact ⟨1, by omega, h1⟩
    · rw [if_neg h1] at h
      by_cases h2 : 3 ≤ yakuLen cond (masks.drop 2)
      · exact ⟨2, by omega, h2⟩
      · rw [if_neg h2] at h
        exact absurd rfl h

theorem calcPrizeSFRow_anchor (b : Board) (yb : YakuBoard) (r : Nat)
    (h : calcPrizeStraightFlushRow b yb r ≠ 0) :
    ∃ a, a ≤ 2 ∧ 3 ≤ yakuLen YakuMask.hasStraightFlush ((ybRowOf yb r).drop a) := by
  rw [calcPrizeStraightFlushRow] at h
  by_cases h0 : 3 ≤ yakuLen YakuMask.hasStraightFlush (ybRowOf yb r)
  · exact ⟨0, by omega, by rw [List.drop_zero]; exact h0⟩
  · rw [if_neg h0] at h
    by_cases h1 : 3 ≤ yakuLen YakuMask.hasStraightFlush ((ybRowOf yb r).drop 1)
    · exact ⟨1, by omega, h1⟩
    · rw [if_neg h1] at h
      by_cases h2 : 3 ≤ yakuLen YakuMask.hasStraightFlush ((ybRowOf yb r).drop 2)
      · exact ⟨2, by omega, h2⟩
      · rw [if_neg h2] at h
        exact absurd rfl h

theorem sum_pos_of_mem {l : List Nat} {x : Nat} (hx : x ∈ l) (hpos : 0 < x) :
    0 < l.sum := by
  have := List.single_le_sum (fun y _ => Nat.zero_le y) x hx
  omega

theorem calcCategory_pos_of_marks (cond : YakuMask → Bool) (prizeF : Nat → Nat)
    (hpos : ∀ len, 3 ≤ len → len ≤ 5 → 0 < prizeF len) (yb : YakuBoard)
    (hyb : yb.length = 25)
    (hrun : (∃ r a len, r < 5 ∧ 3 ≤ len ∧ a + len ≤ 5 ∧ ∀ m, m < len →
              cond (yb.getD (5 * (a + m) + r) maskZero) = true) ∨
            (∃ c a len, c < 5 ∧ 3 ≤ len ∧ a + len ≤ 5 ∧ ∀ m, m < len →
              cond (yb.getD (5 * c + (a + m)) maskZero) = true)) :
    0 < calcCategory cond prizeF yb := by
  rw [calcCategory]
  rcases hrun with ⟨r, a, len, hr, h3, hb, hmark⟩ | ⟨c, a, len, hc, h3, hb, hmark⟩
  · have hy3 : 3 ≤ yakuLen cond ((ybRowOf yb r).drop a) := by
      apply yakuLen_ge
      · rw [List.length_drop, ybRowOf_length]
        omega
      · intro m hm
        rw [getD_drop, ybRowOf_getD yb r (a + m) (by omega)]
        exact hmark m (by omega)
    have hline := calcLinePrize_pos cond prizeF (ybRowOf yb r) (ybRowOf_length yb r)
      a (by omega) hy3 hpos
    have hmem : calcLinePrize cond prizeF (ybRowOf yb r) ∈
        (List.range 5).map fun r2 => calcLinePrize cond prizeF (ybRowOf yb r2) :=
      List.mem_map.mpr ⟨r, List.mem_range.mpr hr, rfl⟩
    have := sum_pos_of_mem hmem hline
    omega
  · have hy3 : 3 ≤ yakuLen cond ((ybColOf yb c).drop a) := by
      apply yakuLen_ge
      · rw [List.length_drop, ybColOf_length yb c hyb hc]
        omega
      · intro m hm
        rw [getD_drop, ybColOf_getD yb c (a + m) (by omega)]
        exact hmark m (by omega)
    have hline := calcLinePrize_pos cond prizeF (ybColOf yb c)
      (ybColOf_length yb c hyb hc) a (by omega) hy3 hpos
    have hmem : calcLinePrize cond prizeF (ybColOf yb c) ∈
        (List.range 5).map fun c2 => calcLinePrize cond prizeF (ybColOf yb c2) :=
      List.mem_map.mpr ⟨c, List.mem_range.mpr hc, rfl⟩
    have := sum_pos_of_mem hmem hline
    omega

-- Stage H: prize positive iff some mark

theorem mask_fields_of_not_zero (m : YakuMask) (h : m.isZero = false) :
    m.straight = true ∨ m.flush = true ∨ m.kind = true := by
  rcases m with ⟨s, f, k⟩
  cases s <;> cases f <;> cases k <;> simp_all [YakuMask.isZero]

theorem mask_fields_of_zero (m : YakuMask) (h : m.isZero = true) :
    m.straight = false ∧ m.flush = false ∧ m.kind = false ∧
      m.hasStraightFlush = false := by
  rcases m with ⟨s, f, k⟩
  cases s <;> cases f <;> cases k <;>
    simp_all [YakuMask.isZero, YakuMask.hasStraightFlush]

theorem calcPrize_pos_of_mask (b : Board) (j : Nat)
    (h : ((detectYaku b).getD j maskZero).isZero = false) :
    0 < calcPrize b (detectYaku b) := by
  have hylen := detectYaku_length b
  have hbase : 0 < calcPrizeStraightFlush b (detectYaku b) +
      calcCategory YakuMask.straight prizeStraight (detectYaku b) +
      calcCategory YakuMask.flush prizeFlush (detectYaku b) +
      calcCategory YakuMask.kind prizeNOfKind (detectYaku b) := by
    rcases mask_fields_of_not_zero _ h with hs | hf | hk
    · rcases straight_bit_run b j hs with
        ⟨r, a, len, h1, h2, h3, h4⟩ | ⟨c, a, len, h1, h2, h3, h4⟩
      · have hcat := calcCategory_pos_of_marks YakuMask.straight prizeStraight
          prizeStraight_pos (detectYaku b) hylen
          (Or.inl ⟨r, a, len, h1, (lineRun_some _ _ _ _ h2).2.2, h3, h4⟩)
        omega
      · have hcat := calcCategory_pos_of_marks YakuMask.straight prizeStraight
          prizeStraight_pos (detectYaku b) hylen
          (Or.inr ⟨c, a, len, h1, (lineRunCol_some _ _ _ _ h2).2.2, h3, h4⟩)
        omega
    · rcases flush_bit_run b j hf with
        ⟨r, a, len, h1, h2, h3, h4⟩ | ⟨c, a, len, h1, h2, h3, h4⟩
      · have hcat := calcCategory_pos_of_marks YakuMask.flush prizeFlush
          prizeFlush_pos (detectYaku b) hylen
          (Or.inl ⟨r, a, len, h1, (lineRun_some _ _ _ _ h2).2.2, h3, h4⟩)
        omega
      · have hcat := calcCategory_pos_of_marks YakuMask.flush prizeFlush
          prizeFlush_pos (detectYaku b) hylen
          (Or.inr ⟨c, a, len, h1, (lineRunCol_some _ _ _ _ h2).2.2, h3, h4⟩)
        omega
    · rcases kind_bit_run b j hk with
        ⟨r, a, len, h1, h2, h3, h4⟩ | ⟨c, a, len, h1, h2, h3, h4⟩
      · have hcat := calcCategory_pos_of_marks YakuMask.kind prizeNOfKind
          prizeNOfKind_pos (detectYaku b) hylen
          (Or.inl ⟨r, a, len, h1, (lineRun_some _ _ _ _ h2).2.2, h3, h4⟩)
        omega
      · have hcat := calcCategory_pos_of_marks YakuMask.kind prizeNOfKind
          prizeNOfKind_pos (detectYaku b) hylen
          (Or.inr ⟨c, a, len, h1, (lineRunCol_some _ _ _ _ h2).2.2, h3, h4⟩)
        omega
  rw [calcPrize]
  rw [if_neg (by omega)]
  have hm := comboMultiplier_pos (countNonzero (detectYaku b))
  exact Nat.mul_pos (by omega) (by omega)

theorem getD_isZero_of_noMarks (yb : YakuBoard)
    (hz : ∀ m ∈ yb, m.isZero = true) (j : Nat) :
    (yb.getD j maskZero).isZero = true := by
  rw [List.getD_eq_getElem?_getD]
  cases h : yb[j]? with
  | none => rfl
  | some x => exact hz x (List.getElem?_mem h)

theorem yakuLen_zero (cond : YakuMask → Bool) (l : List YakuMask)
    (h : ∀ x ∈ l, cond x = false) : yakuLen cond l = 0 := by
  cases l with
  | nil => rfl
  | cons hd tl =>
      rw [yakuLen, if_neg]
      rw [h hd (List.mem_cons_self hd tl)]
      simp

theorem calcLinePrize_zero (cond : YakuMask → Bool) (prizeF : Nat → Nat)
    (masks : List YakuMask) (h : ∀ x ∈ masks, cond x = false) :
    calcLinePrize cond prizeF masks = 0 := by
  have hz : ∀ a, yakuLen cond (masks.drop a) = 0 := fun a =>
    yakuLen_zero cond _ fun x hx => h x (List.mem_of_mem_drop hx)
  rw [calcLinePrize, if_neg (by rw [show masks = masks.drop 0 from rfl, hz 0]; omega)]
  rw [if_neg (by rw [hz 1]; omega), if_neg (by rw [hz 2]; omega)]

theorem calcPrizeSFRow_zero (b : Board) (yb : YakuBoard) (r : Nat)
    (h : ∀ x ∈ ybRowOf yb r, x.hasStraightFlush = false) :
    calcPrizeStraightFlushRow b yb r = 0 := by
  have hz : ∀ a, yakuLen YakuMask.hasStraightFlush ((ybRowOf yb r).drop a) = 0 :=
    fun a => yakuLen_zero _ _ fun x hx => h x (List.mem_of_mem_drop hx)
  rw [calcPrizeStraightFlushRow]
  rw [if_neg (by rw [show ybRowOf yb r = (ybRowOf yb r).drop 0 from rfl, hz 0]; omega)]
  rw [if_neg (by rw [hz 1]; omega), if_neg (by rw [hz 2]; omega)]

theorem calcPrize_zero_of_noMarks (b : Board) (yb : YakuBoard)
    (hz : ∀ m ∈ yb, m.isZero = true) : calcPrize b yb = 0 := by
  have hent_row : ∀ (r : Nat) (x : YakuMask), x ∈ ybRowOf yb r → x.isZero = true := by
    intro r x hx
    obtain ⟨c, _, rfl⟩ := List.mem_map.mp hx
    exact getD_isZero_of_noMarks yb hz _
  have hent_col : ∀ (c : Nat) (x : YakuMask), x ∈ ybColOf yb c → x.isZero = true := by
    intro c x hx
    exact hz x (List.mem_of_mem_drop (List.mem_of_mem_take hx))
  have hcat : ∀ (cond : YakuMask → Bool) (prizeF : Nat → Nat),
      (∀ m, m.isZero = true → cond m = false) →
      calcCategory cond prizeF yb = 0 := by
    intro cond prizeF hcz
    rw [calcCategory]
    have h1 : ((List.range 5).map fun r =>
        calcLinePrize cond prizeF (ybRowOf yb r)).sum = 0 :=
      List.sum_eq_zero fun x hx => by
        obtain ⟨r, _, rfl⟩ := List.mem_map.mp hx
        exact calcLinePrize_zero cond prizeF _ fun m hm => hcz m (hent_row r m hm)
    have h2 : ((List.range 5).map fun c =>
        calcLinePrize cond prizeF (ybColOf yb c)).sum = 0 :=
      List.sum_eq_zero fun x hx => by
        obtain ⟨c, _, rfl⟩ := List.mem_map.mp hx
        exact calcLinePrize_zero cond prizeF _ fun m hm => hcz m (hent_col c m hm)
    rw [h1, h2]
  have hsf : calcPrizeStraightFlush b yb = 0 := by
    rw [calcPrizeStraightFlush]
    have h1 : ((List.range 5).map fun r =>
        calcPrizeStraightFlushRow b yb r).sum = 0 :=
      List.sum_eq_zero fun x hx => by
        obtain ⟨r, _, rfl⟩ := List.mem_map.mp hx
        exact calcPrizeSFRow_zero b yb r fun m hm =>
          (mask_fields_of_zero m (hent_row r m hm)).2.2.2
    have h2 : ((List.range 5).map fun c =>
        calcPrizeStraightFlushCol yb c).sum = 0 :=
      List.sum_eq_zero fun x hx => by
        obtain ⟨c, _, rfl⟩ := List.mem_map.mp hx
        rw [calcPrizeStraightFlushCol]
        exact calcLinePrize_zero _ _ _ fun m hm =>
          (mask_fields_of_zero m (hent_col c m hm)).2.2.2
    rw [h1, h2]
  rw [calcPrize, hsf,
    hcat YakuMask.straight prizeStraight (fun m hm => (mask_fields_of_zero m hm).1),
    hcat YakuMask.flush prizeFlush (fun m hm => (mask_fields_of_zero m hm).2.1),
    hcat YakuMask.kind prizeNOfKind (fun m hm => (mask_fields_of_zero m hm).2.2.1)]
  simp

-- Stage I: marked cells are occupied

theorem phase_bit_cell_occupied (lenF : List (Option Card) → Nat)
    (upd : YakuMask → YakuMask) (f : YakuMask → Bool)
    (hOcc : ∀ line m, m < lenF line → (line.getD m none).isSome = true)
    (hlenF : ∀ line, lenF line ≤ line.length)
    (b : Board) (ybIn : YakuBoard) (j : Nat)
    (hin : f (ybIn.getD j maskZero) = false)
    (h : f ((detectPhase lenF upd b ybIn).getD j maskZero) = true) :
    (b.getD j none).isSome = true := by
  by_contra hcell
  have hrow : ∀ r, r ∈ List.range 5 → ∀ a len,
      lineRun lenF (rowOf b r) = some (a, len) → j ∉ rowRunIdxs r a len := by
    intro r hr a len hl hjmem
    rw [rowRunIdxs] at hjmem
    obtain ⟨m, hm, hEq⟩ := List.mem_map.mp hjmem
    rw [List.mem_range] at hm
    obtain ⟨ha2, hlenEq, h3⟩ := lineRun_some lenF _ a len hl
    have hbound : a + len ≤ 5 := by
      have := hlenF ((rowOf b r).drop a)
      rw [← hlenEq, List.length_drop, rowOf_length] at this
      omega
    have hsome := hOcc ((rowOf b r).drop a) m (by rw [← hlenEq]; exact hm)
    rw [getD_drop, rowOf_getD b r (a + m) (by omega)] at hsome
    rw [hEq] at hsome
    exact hcell hsome
  have hcol : ∀ c, c ∈ List.range 5 → ∀ a len,
      lineRunCol lenF (colOf b c) = some (a, len) → j ∉ colRunIdxs c a len := by
    intro c hc a len hl hjmem
    rw [colRunIdxs] at hjmem
    obtain ⟨m, hm, hEq⟩ := List.mem_map.mp hjmem
    rw [List.mem_range] at hm
    obtain ⟨ha2, hlenEq, h3⟩ := lineRunCol_some lenF _ a len hl
    have hbound : a + m < 5 := by
      have := hlenF ((colOf b c).drop a)
      rw [← hlenEq, List.length_drop] at this
      have hclen : (colOf b c).length ≤ 5 := by simp [colOf]
      omega
    have hsome := hOcc ((colOf b c).drop a) m (by rw [← hlenEq]; exact hm)
    rw [getD_drop, colOf_getD b c (a + m) hbound] at hsome
    rw [hEq] at hsome
    exact hcell hsome
  rw [detectPhase_unchanged_at lenF upd b ybIn j hrow hcol, hin] at h
  cases h

theorem detectYaku_occ (b : Board) (j : Nat)
    (h : ((detectYaku b).getD j maskZero).isZero = false) :
    (b.getD j none).isSome = true := by
  rcases mask_fields_of_not_zero _ h with hs | hf | hk
  · have hpt : ((detectYaku b).getD j maskZero).straight =
        ((detectPhase straightLen setStraight b ybNew).getD j maskZero).straight := by
      rw [detectYaku, detectNOfKind,
        detectPhase_pointwise (fun m => m.straight) nOfKindLen setNOfKind
          (fun m => rfl) b _ j,
        detectFlush,
        detectPhase_pointwise (fun m => m.straight) flushLen setFlush
          (fun m => rfl) b _ j,
        detectStraight]
    rw [hpt] at hs
    exact phase_bit_cell_occupied straightLen setStraight (fun m => m.straight)
      straightLen_occ straightLen_le b ybNew j (by rw [ybNew_getD]; rfl) hs
  · have hpt : ((detectYaku b).getD j maskZero).flush =
        ((detectPhase flushLen setFlush b (detectStraight b ybNew)).getD j
          maskZero).flush := by
      rw [detectYaku, detectNOfKind,
        detectPhase_pointwise (fun m => m.flush) nOfKindLen setNOfKind
          (fun m => rfl) b _ j,
        detectFlush]
    rw [hpt] at hf
    have hin : ((detectStraight b ybNew).getD j maskZero).flush = false := by
      rw [detectStraight,
        detectPhase_pointwise (fun m => m.flush) straightLen setStraight
          (fun m => rfl) b _ j, ybNew_getD]
      rfl
    exact phase_bit_cell_occupied flushLen setFlush (fun m => m.flush)
      flushLen_occ flushLen_le b (detectStraight b ybNew) j hin hf
  · have hpt : ((detectYaku b).getD j maskZero).kind =
        ((detectPhase nOfKindLen setNOfKind b
          (detectFlush b (detectStraight b ybNew))).getD j maskZero).kind := by
      rw [detectYaku, detectNOfKind]
    rw [hpt] at hk
    have hin : ((detectFlush b (detectStraight b ybNew)).getD j maskZero).kind =
        false := by
      rw [detectFlush,
        detectPhase_pointwise (fun m => m.kind) flushLen setFlush
          (fun m => rfl) b _ j,
        detectStraight,
        detectPhase_pointwise (fun m => m.kind) straightLen setStraight
          (fun m => rfl) b _ j, ybNew_getD]
      rfl
    exact phase_bit_cell_occupied nOfKindLen setNOfKind (fun m => m.kind)
      nOfKindLen_occ nOfKindLen_le b (detectFlush b (detectStraight b ybNew))
      j hin hk

-- Stage J: card counting

theorem cardCount_le (b : Board) : cardCount b ≤ b.length :=
  List.length_filterMap_le id b

theorem cardCount_set_none : ∀ (b : Board) (j : Nat), j < b.length →
    (b.getD j none).isSome = true →
    cardCount (b.set j none) + 1 = cardCount b := by
  intro b
  induction b with
  | nil => intro j hj _; simp at hj
  | cons oc rest ih =>
      intro j hj hs
      cases j with
      | zero =>
          cases oc with
          | none => simp at hs
          | some c =>
              rw [List.set_cons_zero]
              rw [cardCount, cardCount]
              simp [List.filterMap_cons]
      | succ j2 =>
          rw [List.set_cons_succ]
          have hj2 : j2 < rest.length := by simp at hj; omega
          have hs2 : (rest.getD j2 none).isSome = true := hs
          have := ih j2 hj2 hs2
          cases oc with
          | none =>
              rw [cardCount, cardCount] at *
              simpa [List.filterMap_cons] using this
          | some c =>
              rw [cardCount, cardCount] at *
              simpa [List.filterMap_cons] using this

theorem cardCount_clear : ∀ (idxs : List Nat) (b : Board), idxs.Nodup →
    (∀ i ∈ idxs, i < b.length) → (∀ i ∈ idxs, (b.getD i none).isSome = true) →
    cardCount (idxs.foldl (fun acc i => acc.set i none) b) + idxs.length =
      cardCount b := by
  intro idxs
  induction idxs with
  | nil => intro b _ _ _; simp
  | cons i t ih =>
      intro b hnd hlt hsome
      rw [List.foldl_cons]
      have hi := cardCount_set_none b i (hlt i (List.mem_cons_self i t))
        (hsome i (List.mem_cons_self i t))
      have hnd2 := List.nodup_cons.mp hnd
      have hstep := ih (b.set i none) hnd2.2
        (fun x hx => by rw [List.length_set]; exact hlt x (List.mem_cons_of_mem i hx))
        (fun x hx => by
          rw [getD_set_ne _ _ _ (fun hEq => hnd2.1 (by rw [hEq]; exact hx))]
          exact hsome x (List.mem_cons_of_mem i hx))
      simp only [List.length_cons]
      omega

theorem fallColAux_cards : ∀ (l : List (Option Card)) (i j : Nat),
    (fallColAux l i j).1 = l.filterMap id := by
  intro l
  induction l with
  | nil => intro i j; rfl
  | cons oc rest ih =>
      intro i j
      cases oc with
      | none =>
          rw [fallColAux, ih]
          simp [List.filterMap_cons]
      | some c =>
          rw [fallColAux]
          simp only [List.filterMap_cons]
          rw [← ih (i + 1) (j + 1)]
          rfl

theorem filterMap_id_map_some (cs : List Card) :
    (cs.map some).filterMap id = cs := by
  induction cs with
  | nil => rfl
  | cons c t ih => simp [List.filterMap_cons, ih]

theorem filterMap_id_replicate_none (k : Nat) :
    ((List.replicate k none : List (Option Card)).filterMap id) = [] := by
  induction k with
  | zero => rfl
  | succ n ih => simp [List.replicate, List.filterMap_cons, ih]

theorem fallCol_cardCount (l : List (Option Card)) :
    cardCount (fallCol l).1 = cardCount l := by
  rw [fallCol]
  rcases haux : fallColAux l 0 0 with ⟨cs, fr⟩
  have hcs : cs = l.filterMap id := by
    have := fallColAux_cards l 0 0
    rw [haux] at this
    exact this
  rw [cardCount, List.filterMap_append, filterMap_id_map_some,
    filterMap_id_replicate_none, List.append_nil, hcs]
  rfl

theorem fallCol_length (l : List (Option Card)) :
    (fallCol l).1.length = l.length := by
  rw [fallCol]
  rcases haux : fallColAux l 0 0 with ⟨cs, fr⟩
  have hcs : cs = l.filterMap id := by
    have := fallColAux_cards l 0 0
    rw [haux] at this
    exact this
  have hle : cs.length ≤ l.length := by
    rw [hcs]
    exact List.length_filterMap_le id l
  simp only [List.length_append, List.length_map, List.length_replicate]
  omega

theorem cardCount_flatten : ∀ ls : List (List (Option Card)),
    cardCount ls.flatten = (ls.map cardCount).sum := by
  intro ls
  induction ls with
  | nil => rfl
  | cons hd tl ih =>
      rw [List.flatten_cons, cardCount, List.filterMap_append, List.length_append,
        List.map_cons, List.sum_cons, ← ih]
      rfl

theorem cols_flatten (b : Board) (h : b.length = 25) :
    ((List.range 5).map fun c => colOf b c).flatten = b := by
  have hr : (List.range 5) = [0, 1, 2, 3, 4] := rfl
  rw [hr, List.map_cons, List.map_cons, List.map_cons, List.map_cons,
    List.map_cons, List.map_nil]
  simp only [List.flatten_cons, List.flatten_nil, List.append_nil]
  have e20 : colOf b 4 = b.drop 20 := by
    rw [colOf]
    exact List.take_of_length_le (by rw [List.length_drop, h])
  have e0 : colOf b 0 = b.take 5 := by rw [colOf, Nat.mul_zero, List.drop_zero]
  rw [e0, e20]
  have d1 : colOf b 1 ++ (colOf b 2 ++ (colOf b 3 ++ b.drop 20)) = b.drop 5 := by
    have t1 : colOf b 1 = (b.drop 5).take 5 := rfl
    have t2 : colOf b 2 = (b.drop 10).take 5 := rfl
    have t3 : colOf b 3 = (b.drop 15).take 5 := rfl
    rw [t1, t2, t3]
    have s3 : (b.drop 15).take 5 ++ b.drop 20 = b.drop 15 := by
      have : (b.drop 15).drop 5 = b.drop 20 := by
        rw [List.drop_drop]
      rw [← this, List.take_append_drop]
    have s2 : (b.drop 10).take 5 ++ b.drop 15 = b.drop 10 := by
      have : (b.drop 10).drop 5 = b.drop 15 := by
        rw [List.drop_drop]
      rw [← this, List.take_append_drop]
    have s1 : (b.drop 5).take 5 ++ b.drop 10 = b.drop 5 := by
      have : (b.drop 5).drop 5 = b.drop 10 := by
        rw [List.drop_drop]
      rw [← this, List.take_append_drop]
    rw [s3, s2, s1]
  rw [d1, List.take_append_drop]

theorem fall_fst (b : Board) :
    (fall b).1 = ((List.range 5).map fun c => (fallCol (colOf b c)).1).flatten := by
  rw [fall, List.map_map]
  rfl

theorem colOf_length (b : Board) (c : Nat) (h : b.length = 25) (hc : c < 5) :
    (colOf b c).length = 5 := by
  simp only [colOf, List.length_take, List.length_drop, h]
  omega

theorem fall_cardCount (b : Board) (h : b.length = 25) :
    cardCount (fall b).1 = cardCount b := by
  rw [fall_fst, cardCount_flatten, List.map_map]
  have hcongr : (List.range 5).map (cardCount ∘ fun c => (fallCol (colOf b c)).1) =
      (List.range 5).map fun c => cardCount (colOf b c) :=
    List.map_congr_left fun c _ => fallCol_cardCount (colOf b c)
  calc ((List.range 5).map (cardCount ∘ fun c => (fallCol (colOf b c)).1)).sum
      = ((List.range 5).map fun c => cardCount (colOf b c)).sum := by rw [hcongr]
    _ = (((List.range 5).map fun c => colOf b c).map cardCount).sum := by
        rw [List.map_map]
        rfl
    _ = cardCount (((List.range 5).map fun c => colOf b c).flatten) :=
        (cardCount_flatten _).symm
    _ = cardCount b := by rw [cols_flatten b h]

theorem fall_length (b : Board) (h : b.length = 25) : (fall b).1.length = 25 := by
  rw [fall_fst, List.length_flatten, List.map_map]
  have hcongr : (List.range 5).map (List.length ∘ fun c => (fallCol (colOf b c)).1) =
      (List.range 5).map fun c => 5 := by
    apply List.map_congr_left
    intro c hc
    have := fallCol_length (colOf b c)
    simp only [Function.comp]
    rw [this, colOf_length b c h (List.mem_range.mp hc)]
  rw [hcongr]
  rfl

theorem foldl_set_length (idxs : List Nat) (b : Board) :
    (idxs.foldl (fun acc i => acc.set i none) b).length = b.length := by
  induction idxs generalizing b with
  | nil => rfl
  | cons i t ih =>
      rw [List.foldl_cons, ih, List.length_set]

theorem yakuStep_fst (b : Board) :
    (yakuStep b).1 = (fall (((List.range 25).filter fun i =>
      !((detectYaku b).getD i maskZero).isZero).foldl
        (fun acc i => acc.set i none) b)).1 := by
  simp only [yakuStep]

theorem yakuStep_prize (b : Board) :
    (yakuStep b).2.2 = calcPrize b (detectYaku b) := by
  simp only [yakuStep]

theorem sum_ne_zero_mem {l : List Nat} (h : l.sum ≠ 0) : ∃ x ∈ l, x ≠ 0 := by
  by_contra hc
  push_neg at hc
  exact h (List.sum_eq_zero hc)

theorem not_zero_of_straight (m : YakuMask) (h : m.straight = true) :
    m.isZero = false := by
  rcases m with ⟨s, f, k⟩
  cases s <;> cases f <;> cases k <;> simp_all [YakuMask.isZero]

theorem not_zero_of_flush (m : YakuMask) (h : m.flush = true) :
    m.isZero = false := by
  rcases m with ⟨s, f, k⟩
  cases s <;> cases f <;> cases k <;> simp_all [YakuMask.isZero]

theorem not_zero_of_kind (m : YakuMask) (h : m.kind = true) :
    m.isZero = false := by
  rcases m with ⟨s, f, k⟩
  cases s <;> cases f <;> cases k <;> simp_all [YakuMask.isZero]

theorem not_zero_of_sf (m : YakuMask) (h : m.hasStraightFlush = true) :
    m.isZero = false := by
  rcases m with ⟨s, f, k⟩
  cases s <;> cases f <;> cases k <;>
    simp_all [YakuMask.isZero, YakuMask.hasStraightFlush]

theorem three_cells_row (cond : YakuMask → Bool) (yb : YakuBoard) (r a : Nat)
    (hr : r < 5) (ha : a ≤ 2)
    (h3 : 3 ≤ yakuLen cond ((ybRowOf yb r).drop a))
    (hcz : ∀ m, cond m = true → m.isZero = false) :
    ∃ i1 i2 i3 : Nat, i1 < 25 ∧ i2 < 25 ∧ i3 < 25 ∧ i1 ≠ i2 ∧ i1 ≠ i3 ∧
      i2 ≠ i3 ∧ (yb.getD i1 maskZero).isZero = false ∧
      (yb.getD i2 maskZero).isZero = false ∧
      (yb.getD i3 maskZero).isZero = false := by
  have hcell : ∀ m, m < 3 → (yb.getD (5 * (a + m) + r) maskZero).isZero = false := by
    intro m hm
    have hsat := yakuLen_sat cond ((ybRowOf yb r).drop a) m (by omega)
    rw [getD_drop, ybRowOf_getD yb r (a + m) (by omega)] at hsat
    exact hcz _ hsat
  refine ⟨5 * (a + 0) + r, 5 * (a + 1) + r, 5 * (a + 2) + r, by omega, by omega,
    by omega, by omega, by omega, by omega, hcell 0 (by omega), hcell 1 (by omega),
    hcell 2 (by omega)⟩

theorem three_cells_col (cond : YakuMask → Bool) (yb : YakuBoard) (c a : Nat)
    (hc : c < 5) (ha : a ≤ 2)
    (h3 : 3 ≤ yakuLen cond ((ybColOf yb c).drop a))
    (hcz : ∀ m, cond m = true → m.isZero = false) :
    ∃ i1 i2 i3 : Nat, i1 < 25 ∧ i2 < 25 ∧ i3 < 25 ∧ i1 ≠ i2 ∧ i1 ≠ i3 ∧
      i2 ≠ i3 ∧ (yb.getD i1 maskZero).isZero = false ∧
      (yb.getD i2 maskZero).isZero = false ∧
      (yb.getD i3 maskZero).isZero = false := by
  have hcell : ∀ m, m < 3 → (yb.getD (5 * c + (a + m)) maskZero).isZero = false := by
    intro m hm
    have hsat := yakuLen_sat cond ((ybColOf yb c).drop a) m (by omega)
    rw [getD_drop, ybColOf_getD yb c (a + m) (by omega)] at hsat
    exact hcz _ hsat
  refine ⟨5 * c + (a + 0), 5 * c + (a + 1), 5 * c + (a + 2), by omega, by omega,
    by omega, by omega, by omega, by omega, hcell 0 (by omega), hcell 1 (by omega),
    hcell 2 (by omega)⟩

theorem three_cells_of_category (cond : YakuMask → Bool) (prizeF : Nat → Nat)
    (yb : YakuBoard) (hcz : ∀ m, cond m = true → m.isZero = false)
    (h : calcCategory cond prizeF yb ≠ 0) :
    ∃ i1 i2 i3 : Nat, i1 < 25 ∧ i2 < 25 ∧ i3 < 25 ∧ i1 ≠ i2 ∧ i1 ≠ i3 ∧
      i2 ≠ i3 ∧ (yb.getD i1 maskZero).isZero = false ∧
      (yb.getD i2 maskZero).isZero = false ∧
      (yb.getD i3 maskZero).isZero = false := by
  rw [calcCategory] at h
  by_cases hrow : ((List.range 5).map fun r =>
      calcLinePrize cond prizeF (ybRowOf yb r)).sum = 0
  · have hcol : ((List.range 5).map fun c =>
        calcLinePrize cond prizeF (ybColOf yb c)).sum ≠ 0 := by omega
    obtain ⟨x, hmem, hx⟩ := sum_ne_zero_mem hcol
    obtain ⟨c, hcr, rfl⟩ := List.mem_map.mp hmem
    obtain ⟨a, ha, h3⟩ := calcLinePrize_anchor cond prizeF _ hx
    exact three_cells_col cond yb c a (List.mem_range.mp hcr) ha h3 hcz
  · obtain ⟨x, hmem, hx⟩ := sum_ne_zero_mem hrow
    obtain ⟨r, hrr, rfl⟩ := List.mem_map.mp hmem
    obtain ⟨a, ha, h3⟩ := calcLinePrize_anchor cond prizeF _ hx
    exact three_cells_row cond yb r a (List.mem_range.mp hrr) ha h3 hcz

theorem three_cells_of_sf (b : Board) (yb : YakuBoard)
    (h : calcPrizeStraightFlush b yb ≠ 0) :
    ∃ i1 i2 i3 : Nat, i1 < 25 ∧ i2 < 25 ∧ i3 < 25 ∧ i1 ≠ i2 ∧ i1 ≠ i3 ∧
      i2 ≠ i3 ∧ (yb.getD i1 maskZero).isZero = false ∧
      (yb.getD i2 maskZero).isZero = false ∧
      (yb.getD i3 maskZero).isZero = false := by
  rw [calcPrizeStraightFlush] at h
  by_cases hrow : ((List.range 5).map fun r =>
      calcPrizeStraightFlushRow b yb r).sum = 0
  · have hcol : ((List.range 5).map fun c =>
        calcPrizeStraightFlushCol yb c).sum ≠ 0 := by omega
    obtain ⟨x, hmem, hx⟩ := sum_ne_zero_mem hcol
    obtain ⟨c, hcr, rfl⟩ := List.mem_map.mp hmem
    rw [calcPrizeStraightFlushCol] at hx
    obtain ⟨a, ha, h3⟩ := calcLinePrize_anchor _ _ _ hx
    exact three_cells_col _ yb c a (List.mem_range.mp hcr) ha h3 not_zero_of_sf
  · obtain ⟨x, hmem, hx⟩ := sum_ne_zero_mem hrow
    obtain ⟨r, hrr, rfl⟩ := List.mem_map.mp hmem
    obtain ⟨a, ha, h3⟩ := calcPrizeSFRow_anchor b yb r hx
    exact three_cells_row _ yb r a (List.mem_range.mp hrr) ha h3 not_zero_of_sf

-- Stage K: settled boards do not move under fall

theorem filterMap_id_allNone (l : List (Option Card))
    (h : l.all Option.isNone = true) : l.filterMap id = [] := by
  induction l with
  | nil => rfl
  | cons oc rest ih =>
      rw [List.all_cons, Bool.and_eq_true] at h
      cases oc with
      | none => simp [List.filterMap_cons, ih h.2]
      | some c => simp at h

theorem fallColAux_allNone : ∀ (l : List (Option Card)),
    l.all Option.isNone = true → ∀ i j, fallColAux l i j = ([], 0) := by
  intro l
  induction l with
  | nil => intro _ i j; rfl
  | cons oc rest ih =>
      intro h i j
      rw [List.all_cons, Bool.and_eq_true] at h
      cases oc with
      | none => rw [fallColAux, ih h.2]
      | some c => simp at h

theorem fallColAux_settled : ∀ (l : List (Option Card)),
    settledCol l = true → ∀ i, fallColAux l i i = (l.filterMap id, 0) := by
  intro l
  induction l with
  | nil => intro _ i; rfl
  | cons oc rest ih =>
      intro h i
      cases oc with
      | some c =>
          rw [settledCol] at h
          rw [fallColAux, ih h (i + 1)]
          simp [List.filterMap_cons]
      | none =>
          rw [settledCol] at h
          rw [fallColAux, fallColAux_allNone rest h i (i + 1)]
          simp [List.filterMap_cons, filterMap_id_allNone rest h]

theorem settled_decomp : ∀ (l : List (Option Card)), settledCol l = true →
    l = (l.filterMap id).map some ++
      List.replicate (l.length - (l.filterMap id).length) none := by
  intro l
  induction l with
  | nil => intro _; rfl
  | cons oc rest ih =>
      intro h
      cases oc with
      | some c =>
          rw [settledCol] at h
          conv_lhs => rw [ih h]
          simp [List.filterMap_cons]
      | none =>
          rw [settledCol] at h
          rw [filterMap_id_allNone (none :: rest) (by simp [h])]
          simp only [List.map_nil, List.nil_append, List.length_nil,
            List.length_cons, Nat.sub_zero]
          rw [List.replicate_succ]
          have : rest = List.replicate rest.length none := by
            apply List.eq_replicate_of_mem
            intro x hx
            have := List.all_eq_true.mp h x hx
            cases x with
            | none => rfl
            | some c2 => simp at this
          conv_lhs => rw [this]

theorem settled_fallCol (l : List (Option Card)) (h : settledCol l = true) :
    fallCol l = (l, 0) := by
  rw [fallCol, fallColAux_settled l h 0]
  have := settled_decomp l h
  exact Prod.ext (this.symm) rfl

theorem settled_fall (b : Board) (hlen : b.length = 25)
    (hs : isSettled b = true) : fall b = (b, 0) := by
  have hcols : ∀ c, c ∈ List.range 5 → fallCol (colOf b c) = (colOf b c, 0) := by
    intro c hc
    exact settled_fallCol _ (List.all_eq_true.mp hs c hc)
  rw [fall]
  have hres : (List.range 5).map (fun c => fallCol (colOf b c)) =
      (List.range 5).map fun c => (colOf b c, 0) :=
    List.map_congr_left hcols
  rw [hres]
  refine Prod.ext ?_ ?_
  · show (((List.range 5).map fun c => (colOf b c, (0 : Nat))).map Prod.fst).flatten = b
    rw [List.map_map]
    have : ((List.range 5).map (Prod.fst ∘ fun c => (colOf b c, (0 : Nat)))) =
        (List.range 5).map fun c => colOf b c := rfl
    rw [this, cols_flatten b hlen]
  · show (((List.range 5).map fun c => (colOf b c, (0 : Nat))).map Prod.snd).sum = 0
    rw [List.map_map]
    rfl

-- Stage L: a prize-paying step clears at least three cards

theorem yakuStep_length (b : Board) (h : b.length = 25) :
    (yakuStep b).1.length = 25 := by
  rw [yakuStep_fst, fall_length]
  rw [foldl_set_length, h]

theorem calcPrize_base_ne_zero (b : Board) (yb : YakuBoard)
    (hp : calcPrize b yb ≠ 0) :
    calcPrizeStraightFlush b yb + calcCategory YakuMask.straight prizeStraight yb +
      calcCategory YakuMask.flush prizeFlush yb +
      calcCategory YakuMask.kind prizeNOfKind yb ≠ 0 := by
  intro hb
  rw [calcPrize, if_pos hb] at hp
  exact hp rfl

theorem three_cells_of_prize (b : Board)
    (hp : calcPrize b (detectYaku b) ≠ 0) :
    ∃ i1 i2 i3 : Nat, i1 < 25 ∧ i2 < 25 ∧ i3 < 25 ∧ i1 ≠ i2 ∧ i1 ≠ i3 ∧
      i2 ≠ i3 ∧ ((detectYaku b).getD i1 maskZero).isZero = false ∧
      ((detectYaku b).getD i2 maskZero).isZero = false ∧
      ((detectYaku b).getD i3 maskZero).isZero = false := by
  have hbase := calcPrize_base_ne_zero b (detectYaku b) hp
  by_cases hsf : calcPrizeStraightFlush b (detectYaku b) = 0
  · by_cases hst : calcCategory YakuMask.straight prizeStraight (detectYaku b) = 0
    · by_cases hfl : calcCategory YakuMask.flush prizeFlush (detectYaku b) = 0
      · have hnk : calcCategory YakuMask.kind prizeNOfKind (detectYaku b) ≠ 0 := by
          omega
        exact three_cells_of_category _ _ _ not_zero_of_kind hnk
      · exact three_cells_of_category _ _ _ not_zero_of_flush hfl
    · exact three_cells_of_category _ _ _ not_zero_of_straight hst
  · exact three_cells_of_sf b _ hsf

theorem yakuStep_count (b : Board) (hlen : b.length = 25)
    (hp : (yakuStep b).2.2 ≠ 0) :
    cardCount (yakuStep b).1 + 3 ≤ cardCount b := by
  rw [yakuStep_prize] at hp
  obtain ⟨i1, i2, i3, hl1, hl2, hl3, hne12, hne13, hne23, hz1, hz2, hz3⟩ :=
    three_cells_of_prize b hp
  have hmemc : ∀ i, i < 25 → ((detectYaku b).getD i maskZero).isZero = false →
      i ∈ (List.range 25).filter fun i2 =>
        !((detectYaku b).getD i2 maskZero).isZero := by
    intro i hi hz
    rw [List.mem_filter]
    exact ⟨List.mem_range.mpr hi, by rw [hz]; rfl⟩
  have hnodup : ((List.range 25).filter fun i2 =>
      !((detectYaku b).getD i2 maskZero).isZero).Nodup :=
    (List.nodup_range 25).filter _
  have hsub : [i1, i2, i3] ⊆ (List.range 25).filter fun i2 =>
      !((detectYaku b).getD i2 maskZero).isZero := by
    intro x hx
    rcases List.mem_cons.mp hx with rfl | hx
    · exact hmemc _ hl1 hz1
    rcases List.mem_cons.mp hx with rfl | hx
    · exact hmemc _ hl2 hz2
    rcases List.mem_cons.mp hx with rfl | hx
    · exact hmemc _ hl3 hz3
    cases hx
  have hnd3 : ([i1, i2, i3] : List Nat).Nodup := by
    simp [hne12, hne13, hne23]
  have hge3 : 3 ≤ ((List.range 25).filter fun i2 =>
      !((detectYaku b).getD i2 maskZero).isZero).length := by
    have := (hnd3.subperm hsub).length_le
    simpa using this
  have hclear := cardCount_clear
    ((List.range 25).filter fun i2 => !((detectYaku b).getD i2 maskZero).isZero) b
    hnodup
    (fun i hi => by
      rw [hlen]
      exact List.mem_range.mp (List.mem_filter.mp hi).1)
    (fun i hi => by
      apply detectYaku_occ
      have h2 := (List.mem_filter.mp hi).2
      rwa [Bool.not_eq_true'] at h2)
  have hfallc : cardCount (yakuStep b).1 =
      cardCount (((List.range 25).filter fun i2 =>
        !((detectYaku b).getD i2 maskZero).isZero).foldl
          (fun acc i => acc.set i none) b) := by
    rw [yakuStep_fst]
    exact fall_cardCount _ (by rw [foldl_set_length, hlen])
  omega

theorem chainGo_succ (fuel : Nat) (b : Board) :
    chainGo (fuel + 1) b =
      if (yakuStep b).2.2 = 0 then ((yakuStep b).1, (0, 0))
      else ((chainGo fuel (yakuStep b).1).1,
        ((yakuStep b).2.1 + (chainGo fuel (yakuStep b).1).2.1,
         (yakuStep b).2.2 + (chainGo fuel (yakuStep b).1).2.2)) := by
  rcases hs : yakuStep b with ⟨b1, f, p⟩
  simp only [chainGo, hs]

theorem chainTraceGo_succ (fuel : Nat) (b : Board) :
    chainTraceGo (fuel + 1) b =
      if (yakuStep b).2.2 = 0 then [detectYaku b]
      else detectYaku b :: chainTraceGo fuel (yakuStep b).1 := by
  rcases hs : yakuStep b with ⟨b1, f, p⟩
  simp only [chainTraceGo, hs]

theorem chainGo_congr : ∀ (k f1 f2 : Nat) (b : Board), b.length = 25 →
    cardCount b ≤ 3 * k → k < f1 → k < f2 → chainGo f1 b = chainGo f2 b := by
  intro k
  induction k with
  | zero =>
    intro f1 f2 b hlen hc h1 h2
    cases f1 with
    | zero => omega
    | succ a =>
      cases f2 with
      | zero => omega
      | succ c =>
        rw [chainGo_succ, chainGo_succ]
        by_cases hp : (yakuStep b).2.2 = 0
        · rw [if_pos hp, if_pos hp]
        · exact absurd (yakuStep_count b hlen hp) (by omega)
  | succ k ih =>
    intro f1 f2 b hlen hc h1 h2
    cases f1 with
    | zero => omega
    | succ a =>
      cases f2 with
      | zero => omega
      | succ c =>
        rw [chainGo_succ, chainGo_succ]
        by_cases hp : (yakuStep b).2.2 = 0
        · rw [if_pos hp, if_pos hp]
        · rw [if_neg hp, if_neg hp]
          have hcnt := yakuStep_count b hlen hp
          have hrec := ih a c (yakuStep b).1 (yakuStep_length b hlen)
            (by omega) (by omega) (by omega)
          rw [hrec]

theorem prizeStraightFlush_cases (n : Nat) :
    prizeStraightFlush n = 0 ∨ prizeStraightFlush n = 39 ∨
    prizeStraightFlush n = 40 ∨ prizeStraightFlush n = 120 := by
  match n with
  | 0 => exact Or.inl rfl
  | 1 => exact Or.inl rfl
  | 2 => exact Or.inl rfl
  | 3 => exact Or.inr (Or.inl rfl)
  | 4 => exact Or.inr (Or.inr (Or.inl rfl))
  | 5 => exact Or.inr (Or.inr (Or.inr rfl))
  | n + 6 => exact Or.inl rfl

theorem stepPrize_zero_iff (b : Board) :
    (yakuStep b).2.2 = 0 ↔ ∀ m ∈ detectYaku b, m.isZero = true := by
  rw [yakuStep_prize]
  constructor
  · intro hz m hm
    by_contra hfalse
    have hm2 : m.isZero = false := by
      cases h : m.isZero with
      | false => rfl
      | true => exact absurd h hfalse
    obtain ⟨j, hj, hg⟩ := List.mem_iff_getElem.mp hm
    have hgd : ((detectYaku b).getD j maskZero).isZero = false := by
      rw [List.getD_eq_getElem (detectYaku b) maskZero hj, hg]
      exact hm2
    have hpos := calcPrize_pos_of_mask b j hgd
    omega
  · exact calcPrize_zero_of_noMarks b (detectYaku b)

/-- C5: every yaku step that pays a nonzero prize clears at least 3 cells
(the card count drops by at least 3), so on a 25-cell board the chain loop of
`process_yaku_chain` performs at most 9 prize-paying steps: `chainGo` is
fuel-independent from 10 steps up, and the fuel-26 `processYakuChain` already
computes the loop's final value. -/
theorem process_yaku_chain_terminates (b : Board) (hlen : b.length = 25) :
    ((yakuStep b).2.2 ≠ 0 → cardCount (yakuStep b).1 + 3 ≤ cardCount b) ∧
    ∀ fuel, 10 ≤ fuel → chainGo fuel b = processYakuChain b := by
  constructor
  · exact yakuStep_count b hlen
  · intro fuel hf
    rw [processYakuChain]
    exact chainGo_congr 9 fuel 26 b hlen
      (by have h := cardCount_le b; omega) (by omega) (by omega)

theorem process_yaku_chain_terminates_witness :
    chainGo 11 boardThreeAces = processYakuChain boardThreeAces :=
  (process_yaku_chain_terminates boardThreeAces (by rfl)).2 11 (by decide)

/-- C3: on a gravity-settled 25-cell board, the total prize of
`process_yaku_chain` is 0 iff every step of the chain detected no yaku (all
masks of every `chainTrace` entry are zero); in that case the board is
returned unchanged. -/
theorem chain_prize_zero_iff (b : Board) (hlen : b.length = 25)
    (hs : isSettled b = true) :
    ((processYakuChain b).2.2 = 0 ↔
      ∀ yb ∈ chainTrace b, ∀ m ∈ yb, m.isZero = true) ∧
    ((processYakuChain b).2.2 = 0 → (processYakuChain b).1 = b) := by
  have hchain : processYakuChain b = chainGo (25 + 1) b := rfl
  have htrace : chainTrace b = chainTraceGo (25 + 1) b := rfl
  have hp_of_total : (processYakuChain b).2.2 = 0 → (yakuStep b).2.2 = 0 := by
    intro htot
    by_contra hp
    rw [hchain, chainGo_succ, if_neg hp] at htot
    simp only at htot
    omega
  have hboard : (yakuStep b).2.2 = 0 → (yakuStep b).1 = b := by
    intro hp
    have hmz := (stepPrize_zero_iff b).mp hp
    have hfilter : ((List.range 25).filter fun i =>
        !((detectYaku b).getD i maskZero).isZero) = [] := by
      rw [List.filter_eq_nil_iff]
      intro i _
      rw [getD_isZero_of_noMarks (detectYaku b) hmz i]
      simp
    rw [yakuStep_fst, hfilter, List.foldl_nil, settled_fall b hlen hs]
  constructor
  · constructor
    · intro htot
      have hp := hp_of_total htot
      rw [htrace, chainTraceGo_succ, if_pos hp]
      intro yb hyb m hm
      rw [List.mem_singleton] at hyb
      subst hyb
      exact (stepPrize_zero_iff b).mp hp m hm
    · intro hall
      have hhead : detectYaku b ∈ chainTrace b := by
        rw [htrace, chainTraceGo_succ]
        by_cases hp : (yakuStep b).2.2 = 0
        · rw [if_pos hp]; exact List.mem_singleton.mpr rfl
        · rw [if_neg hp]; exact List.mem_cons_self _ _
      have hp : (yakuStep b).2.2 = 0 :=
        (stepPrize_zero_iff b).mpr (hall _ hhead)
      rw [hchain, chainGo_succ, if_pos hp]
  · intro htot
    have hp := hp_of_total htot
    rw [hchain, chainGo_succ, if_pos hp]
    exact hboard hp

theorem chain_prize_zero_iff_witness :
    (processYakuChain boardNew).2.2 = 0 ∧
    (processYakuChain boardNew).1 = boardNew := by
  have h := chain_prize_zero_iff boardNew (by rfl) (by decide)
  have hz : (processYakuChain boardNew).2.2 = 0 := by decide
  exact ⟨hz, h.2 hz⟩

/-- C4: when a length-5 straight-flush run fires on a row, the row pays 320
if the row ranks read T J Q K A or A K Q J T and 120 otherwise (the royal
bonus 200 exactly on the royal rank patterns); column straight-flush prizes
only ever take the plain table values 0, 39, 40, 120 — never a royal bonus. -/
theorem royal_flush_rows_only (b : Board) (yb : YakuBoard) (r : Nat)
    (h5 : yakuLen YakuMask.hasStraightFlush (ybRowOf yb r) = 5) :
    calcPrizeStraightFlushRow b yb r =
      (if ranksIsRoyal (rowRanksOf b r) = true then 320 else 120) ∧
    ∀ (yb2 : YakuBoard) (c : Nat),
      calcPrizeStraightFlushCol yb2 c = 0 ∨ calcPrizeStraightFlushCol yb2 c = 39 ∨
      calcPrizeStraightFlushCol yb2 c = 40 ∨ calcPrizeStraightFlushCol yb2 c = 120 := by
  constructor
  · simp only [calcPrizeStraightFlushRow]
    rw [h5]
    by_cases hr : ranksIsRoyal (rowRanksOf b r) = true
    · simp [hr, prizeStraightFlush]
    · simp [hr, prizeStraightFlush]
  · intro yb2 c
    rw [calcPrizeStraightFlushCol, calcLinePrize]
    split_ifs
    · exact prizeStraightFlush_cases _
    · exact prizeStraightFlush_cases _
    · exact prizeStraightFlush_cases _
    · exact Or.inl rfl

theorem royal_flush_rows_only_witness :
    yakuLen YakuMask.hasStraightFlush (ybRowOf masksRoyalRow 0) = 5 ∧
    calcPrizeStraightFlushRow boardRoyalRow masksRoyalRow 0 =
      (if ranksIsRoyal (rowRanksOf boardRoyalRow 0) = true then 320 else 120) :=
  ⟨by decide, (royal_flush_rows_only boardRoyalRow masksRoyalRow 0 (by decide)).1⟩

end Cadillac
